import Mathlib

/-!
Verification model of the `kvs` storage engine (`src/lib.rs` of the
PingCap-Rust-Course repository).

Strings (keys, values, file names, file contents) are modelled as lists of
natural numbers standing for their bytes.  Machine integers (`u64` offsets,
byte counts) are modelled as `Nat`; the places where the 64-bit range
matters (CBOR length heads written by `serde_cbor`) carry explicit
`< 2 ^ 64` bounds.

Error model (`KvError`): the code returns `failure::Error`, which wraps one
of several distinguishable error values.  We model the ones the engine can
produce: `keyNotFound` for the `KeyNotFound` struct, `corruptData` for the
`CorruptData` struct, `serdeError` for `serde_cbor::error::Error`, and
`ioError` for `std::io::Error`.
-/

inductive KvError where
  | keyNotFound
  | corruptData
  | serdeError
  | ioError
  deriving DecidableEq, Repr

/-- The `Command` enum of `src/lib.rs` (lines 38-42): the on-disk record. -/
inductive Command where
  | set (key value : List Nat)
  | remove (key : List Nat)
  deriving DecidableEq, Repr

/-- `Command::key` (lines 52-57). -/
def Command.keyOf : Command → List Nat
  | .set k _ => k
  | .remove k => k

/- ---------------------------------------------------------------------
CBOR encoder: the bytes `serde_cbor::to_writer` produces for a `Command`.
A derived `Serialize` writes an externally tagged enum: a 1-entry map from
the variant name to a map of the named fields, each name and each string a
CBOR text string (major type 3) with minimal-length head.
--------------------------------------------------------------------- -/

/-- Big-endian bytes of `n`, exactly `k` bytes (`n` taken modulo `256 ^ k`). -/
def beBytes : Nat → Nat → List Nat
  | 0, _ => []
  | k + 1, n => beBytes k (n / 256) ++ [n % 256]

/-- The value of a big-endian byte list. -/
def beNat (l : List Nat) : Nat := l.foldl (fun a b => a * 256 + b) 0

/-- CBOR head for major type `maj` and argument `n` (minimal encoding, as
written by `serde_cbor`); `n` is a `u64` in the source, so `n < 2 ^ 64`. -/
def cborHead (maj n : Nat) : List Nat :=
  if n < 24 then [maj * 32 + n]
  else if n < 2 ^ 8 then [maj * 32 + 24] ++ beBytes 1 n
  else if n < 2 ^ 16 then [maj * 32 + 25] ++ beBytes 2 n
  else if n < 2 ^ 32 then [maj * 32 + 26] ++ beBytes 4 n
  else [maj * 32 + 27] ++ beBytes 8 n

/-- CBOR text string: head (major type 3) followed by the raw bytes. -/
def encText (s : List Nat) : List Nat := cborHead 3 s.length ++ s

/-- UTF-8 bytes of the variant name "Set". -/
def tagSet : List Nat := [83, 101, 116]

/-- UTF-8 bytes of the variant name "Remove". -/
def tagRemove : List Nat := [82, 101, 109, 111, 118, 101]

/-- UTF-8 bytes of the field name "key". -/
def fieldKey : List Nat := [107, 101, 121]

/-- UTF-8 bytes of the field name "value". -/
def fieldValue : List Nat := [118, 97, 108, 117, 101]

/-- Bytes `serde_cbor::to_writer` emits for one `Command` record. -/
def encCmd : Command → List Nat
  | .set k v =>
      cborHead 5 1 ++ encText tagSet ++ cborHead 5 2 ++
        encText fieldKey ++ encText k ++ encText fieldValue ++ encText v
  | .remove k =>
      cborHead 5 1 ++ encText tagRemove ++ cborHead 5 1 ++
        encText fieldKey ++ encText k

/-- A log file's bytes: records encoded back to back. -/
def encLog (cmds : List Command) : List Nat := (cmds.map encCmd).flatten

/-- The `u64` bounds under which a record can be written by the program
(string lengths are `usize`). -/
def cmdWf : Command → Prop
  | .set k v => k.length < 2 ^ 64 ∧ v.length < 2 ^ 64
  | .remove k => k.length < 2 ^ 64

instance : DecidablePred cmdWf := by
  intro c; cases c <;> simp [cmdWf] <;> infer_instance

/- ---------------------------------------------------------------------
CBOR decoder: models `serde_cbor::Deserializer::from_reader` feeding the
derived `Deserialize` for `Command`, on the canonical bytes the program
itself writes.  A decoder takes the byte stream and returns the decoded
value plus the unconsumed remainder, or `none` (a `serde_cbor` error).
--------------------------------------------------------------------- -/

def Dec (α : Type) : Type := List Nat → Option (α × List Nat)

def dBind {α β : Type} (p : Dec α) (q : α → Dec β) : Dec β := fun l =>
  match p l with
  | some (a, r) => q a r
  | none => none

def dPure {α : Type} (a : α) : Dec α := fun l => some (a, l)

def dFail {α : Type} : Dec α := fun _ => none

/-- Read one byte from the stream. -/
def rByte : Dec Nat := fun l =>
  match l with
  | [] => none
  | b :: r => some (b, r)

/-- Read exactly `n` bytes from the stream. -/
def rBytes (n : Nat) : Dec (List Nat) := fun l =>
  if n ≤ l.length then some (l.take n, l.drop n) else none

/-- Decode a CBOR head, requiring major type `maj`; returns the argument.
Accepts any definite-length head, as `serde_cbor` does. -/
def decLen (maj : Nat) : Dec Nat :=
  dBind rByte fun h =>
    if h / 32 = maj then
      if h % 32 < 24 then dPure (h % 32)
      else if h % 32 = 24 then dBind (rBytes 1) fun bs => dPure (beNat bs)
      else if h % 32 = 25 then dBind (rBytes 2) fun bs => dPure (beNat bs)
      else if h % 32 = 26 then dBind (rBytes 4) fun bs => dPure (beNat bs)
      else if h % 32 = 27 then dBind (rBytes 8) fun bs => dPure (beNat bs)
      else dFail
    else dFail

/-- Decode a CBOR text string (major type 3). -/
def decText : Dec (List Nat) := dBind (decLen 3) fun n => rBytes n

/-- Decode one `Command` record; `none` models a `serde_cbor` error
(including end of input in the middle of a record). -/
def decCmd : Dec Command :=
  dBind (decLen 5) fun m =>
  if m = 1 then
    dBind decText fun tag =>
    if tag = tagSet then
      dBind (decLen 5) fun m2 =>
      if m2 = 2 then
        dBind decText fun f1 =>
        if f1 = fieldKey then
          dBind decText fun k =>
          dBind decText fun f2 =>
          if f2 = fieldValue then
            dBind decText fun v => dPure (Command.set k v)
          else dFail
        else dFail
      else dFail
    else if tag = tagRemove then
      dBind (decLen 5) fun m2 =>
      if m2 = 1 then
        dBind decText fun f1 =>
        if f1 = fieldKey then
          dBind decText fun k => dPure (Command.remove k)
        else dFail
      else dFail
    else dFail
  else dFail

/- ---------------------------------------------------------------------
The in-memory index: models the `evmap` of key to `(start, end)` ranges
(one value per key) plus the `HashMap` used in `build_index`.
--------------------------------------------------------------------- -/

/-- Index: association list from key bytes to an offset pair. -/
abbrev Idx : Type := List (List Nat × (Nat × Nat))

/-- Index lookup (`evmap::get_and` / `HashMap::get`). -/
def idxLookup (idx : Idx) (k : List Nat) : Option (Nat × Nat) :=
  List.lookup k idx

/-- Remove every entry with key `m` from an association list (used for
`HashMap::remove` / `evmap::empty` and for file removal/replacement). -/
def eraseKeyFn {β : Type} (m : List Nat) : List (List Nat × β) → List (List Nat × β)
  | [] => []
  | (k, v) :: l => if k = m then eraseKeyFn m l else (k, v) :: eraseKeyFn m l

/-- Remove every entry of `k` (`evmap::empty` / `HashMap::remove`). -/
def idxErase (k : List Nat) (idx : Idx) : Idx := eraseKeyFn k idx

/-- Insert/replace the entry of `k` (`evmap::update` / `HashMap::insert`). -/
def idxInsert (k : List Nat) (v : Nat × Nat) (idx : Idx) : Idx :=
  (k, v) :: idxErase k idx

/-- The keys of an index. -/
def idxKeys (idx : Idx) : List (List Nat) := idx.map (·.1)

/-- Process one decoded record during replay: the match arms of
`KvsWriter::build_index` (lines 287-307).  `s`/`e` are the record's start
and end offsets. -/
def applyCmd (c : Command) (s e : Nat) (idx : Idx) (stale : Nat) :
    Except KvError (Idx × Nat) :=
  match c with
  | .set k _ =>
      let extra := match idxLookup idx k with
        | some old => old.2 - old.1
        | none => 0
      .ok (idxInsert k (s, e) idx, stale + extra)
  | .remove k =>
      match idxLookup idx k with
      | none => .error .corruptData
      | some old => .ok (idxErase k idx, stale + (old.2 - old.1))

/-- The replay loop of `KvsWriter::build_index` (lines 273-317): while the
reader is not at EOF, decode one record, compute its end offset from the
stream position, and apply it.  `fuel` only bounds the recursion; every
successful decode consumes at least one byte, so `bytes.length + 1` fuel
always suffices. -/
def biLoop : Nat → List Nat → Nat → Idx → Nat → Except KvError (Idx × Nat)
  | _, [], _, idx, stale => .ok (idx, stale)
  | 0, _ :: _, _, _, _ => .error .serdeError
  | fuel + 1, b :: bs, start, idx, stale =>
      match decCmd (b :: bs) with
      | none => .error .serdeError
      | some (c, rest) =>
          let e := start + ((b :: bs).length - rest.length)
          match applyCmd c start e idx stale with
          | .error err => .error err
          | .ok (idx', stale') => biLoop fuel rest e idx' stale'

/-- `KvsWriter::build_index` run over the bytes of the active log file,
returning the rebuilt index and the accumulated stale-byte count. -/
def buildIndex (bytes : List Nat) : Except KvError (Idx × Nat) :=
  biLoop (bytes.length + 1) bytes 0 [] 0

/-- Record-level restatement of the replay loop, used to relate
`buildIndex` on an encoded log to the records it holds. -/
def replayLog : List Command → Nat → Idx → Nat → Except KvError (Idx × Nat)
  | [], _, idx, stale => .ok (idx, stale)
  | c :: cs, start, idx, stale =>
      let e := start + (encCmd c).length
      match applyCmd c start e idx stale with
      | .error err => .error err
      | .ok (idx', stale') => replayLog cs e idx' stale'

/- ---------------------------------------------------------------------
File names and the data directory.  A directory is an association list
from file name (bytes) to file contents (bytes); every entry is a plain
file.  The model of the OS is reliable: reads, writes, creates, renames
and removals of existing files succeed.
--------------------------------------------------------------------- -/

/-- Position of the last `.` (byte 46) in a file name, if any. -/
def lastDot : List Nat → Option Nat
  | [] => none
  | c :: cs =>
      match lastDot cs with
      | some i => some (i + 1)
      | none => if c = 46 then some 0 else none

/-- `Path::file_stem` for a bare file name: the part before the last dot,
or the whole name when there is no dot or the only dot is leading. -/
def fileStem (n : List Nat) : List Nat :=
  match lastDot n with
  | none => n
  | some 0 => n
  | some i => n.take i

/-- The part after the last `_` (byte 95): `name.rsplit("_").next()`,
which is the whole name when no `_` occurs. -/
def afterLastUnderscore (n : List Nat) : List Nat :=
  match lastUnd n with
  | none => n
  | some i => n.drop (i + 1)
where
  lastUnd : List Nat → Option Nat
    | [] => none
    | c :: cs =>
        match lastUnd cs with
        | some i => some (i + 1)
        | none => if c = 95 then some 0 else none

/-- Is this byte an ASCII digit? -/
def isDigit (b : Nat) : Bool := 48 ≤ b ∧ b ≤ 57

/-- Numeric value of a digit string. -/
def digitsVal (s : List Nat) : Nat := s.foldl (fun a b => a * 10 + (b - 48)) 0

/-- `str::parse::<u64>`: optional leading `+`, then one or more ASCII
digits, with the value in `u64` range. -/
def parseU64 (s : List Nat) : Option Nat :=
  let d := match s with
    | 43 :: rest => rest
    | _ => s
  if d ≠ [] ∧ d.all isDigit ∧ digitsVal d < 2 ^ 64 then some (digitsVal d)
  else none

/-- Fuel-bounded decimal printer; `n + 1` fuel is always enough. -/
def decRepAux : Nat → Nat → List Nat
  | 0, _ => []
  | fuel + 1, n => if n < 10 then [48 + n] else decRepAux fuel (n / 10) ++ [48 + n % 10]

/-- Decimal digit bytes of `n` (used for `format!` of a generation). -/
def decRep (n : Nat) : List Nat := decRepAux (n + 1) n

/-- The bytes "cbor". -/
def cborBytes : List Nat := [99, 98, 111, 114]

/-- The bytes "kvs_". -/
def kvsUnd : List Nat := [107, 118, 115, 95]

/-- `log_path` (lines 211-213): the file name `kvs_<gen>.cbor`
(the directory prefix is irrelevant in the model). -/
def logName (gen : Nat) : List Nat := kvsUnd ++ decRep gen ++ [46] ++ cborBytes

/-- `compacted_log_path` (lines 215-217): the scratch file name
`kvs_compact.cbor`. -/
def scratchName : List Nat :=
  kvsUnd ++ [99, 111, 109, 112, 97, 99, 116] ++ [46] ++ cborBytes

/-- A data directory: file name mapped to file contents. -/
abbrev Dir : Type := List (List Nat × List Nat)

def dirGet (d : Dir) (n : List Nat) : Option (List Nat) := List.lookup n d

def dirSet (d : Dir) (n : List Nat) (c : List Nat) : Dir :=
  (n, c) :: eraseKeyFn n d

def dirRemove (d : Dir) (n : List Nat) : Dir := eraseKeyFn n d

def dirNames (d : Dir) : List (List Nat) := d.map (·.1)

/-- `all_log_files` (lines 231-260), on the directory's file names.  The
source compares `path.file_stem()` (for `kvs_3.cbor` that is `kvs_3`)
against the string `cbor`, and, when a generation is preserved, compares
the full file name against `format!("kvs_{}", gen)` (no extension); both
comparisons are modelled exactly as written. -/
def allLogFiles (names : List (List Nat)) (preserveGen : Option Nat) :
    List (List Nat) :=
  names.filter fun n =>
    fileStem n == cborBytes &&
      match preserveGen with
      | some g => !(n == kvsUnd ++ decRep g)
      | none => true

/-- The startup generation computed by `KvStore::open` (lines 170-180):
over `all_log_files(dir, None)`, keep names starting with `kvs_`, split
off the part after the last `_`, parse it as `u64`, and take the maximum,
defaulting to 0. -/
def openGen (names : List (List Nat)) : Nat :=
  (((allLogFiles names none).filter (fun n => kvsUnd.isPrefixOf n)).filterMap
      (fun n => parseU64 (afterLastUnderscore n))).max?.getD 0

/-- Modelled from the spec (for comparison with `openGen`): scan §4.4 step
1 and §4.2 as written, "let gen = max existing generation, or 0 if none",
over files whose basename matches `kvs_<int>.cbor`. -/
def specMaxGen (names : List (List Nat)) : Nat :=
  (names.filterMap fun n =>
      if kvsUnd.isPrefixOf n ∧ (List.drop 4 n).length ≥ 5 ∧
          List.drop ((List.drop 4 n).length - 5) (List.drop 4 n) = 46 :: cborBytes
      then parseU64 (List.take ((List.drop 4 n).length - 5) (List.drop 4 n))
      else none).max?.getD 0

/- ---------------------------------------------------------------------
Engine state and operations.  The writer, the published index and the
directory are combined into one state; operations are the bodies of
`KvsWriter::set / remove / clear / compaction`, `KvStore::open` and
`KvsReader::get`, executed sequentially (the facade serializes writers;
`get` is pure in this model).
--------------------------------------------------------------------- -/

/-- Engine state: the data directory, the current generation (the index
meta slot), the published index, and the writer's stale-byte counter. -/
structure KvState where
  dir : Dir
  gen : Nat
  index : Idx
  staleBytes : Nat

/-- Contents of the active log file `kvs_<gen>.cbor`. -/
def activeFile (st : KvState) : List Nat :=
  (dirGet st.dir (logName st.gen)).getD []

/-- `COMPACTION_THRESHOLD` (line 125). -/
def COMPACTION_THRESHOLD : Nat := 1024 * 1024

/-- The copy loop of `KvsWriter::compaction` (lines 403-417): for each
index entry in order, seek to `start`, `read_exact` the record's
`end - start` bytes from the old file `f`, append them to the scratch
file, and record the new offset pair. -/
def compactCopy (f : List Nat) :
    List (List Nat × (Nat × Nat)) → List Nat → List (List Nat × (Nat × Nat)) →
      Except KvError (List Nat × List (List Nat × (Nat × Nat)))
  | [], acc, offs => .ok (acc, offs)
  | (k, (s, e)) :: rest, acc, offs =>
      if e - s ≤ f.length - s then
        let b := (f.drop s).take (e - s)
        let no := acc.length
        compactCopy f rest (acc ++ b) (offs ++ [(k, (no, no + (e - s)))])
      else .error .ioError

/-- The bytes `compactCopy` appends: the records of the given index
entries, sliced out of `f` and concatenated in order. -/
def catSlices (f : List Nat) : List (List Nat × (Nat × Nat)) → List Nat
  | [] => []
  | (_, (s, e)) :: rest => (f.drop s).take (e - s) ++ catSlices f rest

/-- The offset pairs `compactCopy` records, starting at `base`. -/
def mkOffs : List (List Nat × (Nat × Nat)) → Nat → List (List Nat × (Nat × Nat))
  | [], _ => []
  | (k, (s, e)) :: rest, base =>
      (k, (base, base + (e - s))) :: mkOffs rest (base + (e - s))

/-- `KvsWriter::compaction` (lines 395-456).  Exclusive-create of the
scratch file fails when it already exists; the copied bytes are renamed to
`kvs_<gen+1>.cbor` (the transient scratch entry disappears in the rename);
the index is rewritten entry by entry with the new offsets; stale bytes
reset; finally `all_log_files(dir, Some(new_gen))` are removed (failures
tolerated). -/
def compaction (st : KvState) : Except KvError KvState :=
  if (dirGet st.dir scratchName).isSome then .error .ioError
  else
    match compactCopy (activeFile st) st.index [] [] with
    | .error e => .error e
    | .ok (bytes, offs) =>
        let ng := st.gen + 1
        let dir1 := dirSet st.dir (logName ng) bytes
        let idx' := offs.foldl (fun i p => idxInsert p.1 p.2 i) st.index
        let dir2 := (allLogFiles (dirNames dir1) (some ng)).foldl dirRemove dir1
        .ok { dir := dir2, gen := ng, index := idx', staleBytes := 0 }

/-- The state after the unconditional part of `KvsWriter::set` (lines
344-361): the encoded `Set` record appended at the end of the active file,
the overwritten entry's length counted as stale, and the new index entry
published. -/
def setMain (k v : List Nat) (st : KvState) : KvState :=
  { dir := dirSet st.dir (logName st.gen) (activeFile st ++ encCmd (.set k v))
    gen := st.gen
    index := idxInsert k ((activeFile st).length,
      (activeFile st).length + (encCmd (.set k v)).length) st.index
    staleBytes := st.staleBytes +
      (match idxLookup st.index k with
       | some old => old.2 - old.1
       | none => 0) }

/-- `KvsWriter::set` (lines 344-368): the unconditional part, then
compaction when over the threshold.  When compaction fails the writer
keeps the already-updated state (the source propagates the error after
the earlier mutations). -/
def kvSet (k v : List Nat) (st : KvState) : Except KvError Unit × KvState :=
  if (setMain k v st).staleBytes > COMPACTION_THRESHOLD then
    match compaction (setMain k v st) with
    | .ok st2 => (.ok (), st2)
    | .error e => (.error e, setMain k v st)
  else (.ok (), setMain k v st)

/-- The state after the unconditional part of a successful
`KvsWriter::remove` (lines 322-333): the `Remove` record appended, the
index entry (of length given by `old`) deleted, its length stale. -/
def removeMain (k : List Nat) (old : Nat × Nat) (st : KvState) : KvState :=
  { dir := dirSet st.dir (logName st.gen) (activeFile st ++ encCmd (.remove k))
    gen := st.gen
    index := idxErase k st.index
    staleBytes := st.staleBytes + (old.2 - old.1) }

/-- `KvsWriter::remove` (lines 319-342): fail with `KeyNotFound` when the
key is absent; otherwise append the `Remove` record, delete the index
entry, count its length as stale, then compact when over the threshold. -/
def kvRemove (k : List Nat) (st : KvState) : Except KvError Unit × KvState :=
  match idxLookup st.index k with
  | none => (.error .keyNotFound, st)
  | some old =>
      if (removeMain k old st).staleBytes > COMPACTION_THRESHOLD then
        match compaction (removeMain k old st) with
        | .ok st2 => (.ok (), st2)
        | .error e => (.error e, removeMain k old st)
      else (.ok (), removeMain k old st)

/-- `KvsWriter::clear` (lines 371-393): remove `all_log_files(dir,
Some(gen))` (failures tolerated), truncate the active file to length 0,
purge the index keeping the generation, and reset stale bytes. -/
def kvClear (st : KvState) : Except KvError Unit × KvState :=
  let dir1 := (allLogFiles (dirNames st.dir) (some st.gen)).foldl dirRemove st.dir
  let dir2 := dirSet dir1 (logName st.gen) []
  (.ok (), { dir := dir2, gen := st.gen, index := [], staleBytes := 0 })

/-- `KvStore::open` (lines 168-208): compute the startup generation from
the directory scan, open `kvs_<gen>.cbor` for append (creating it when
missing), replay it with `build_index`, and publish the index with the
generation in the meta slot. -/
def kvOpen (d : Dir) : Except KvError KvState :=
  let gen := openGen (dirNames d)
  let name := logName gen
  let d1 := if (dirGet d name).isSome then d else dirSet d name []
  let f := (dirGet d1 name).getD []
  match buildIndex f with
  | .error e => .error e
  | .ok (idx, stale) =>
      .ok { dir := d1, gen := gen, index := idx, staleBytes := stale }

/-- `KvsReader::get` (lines 467-487): atomically observe the index entry
and the meta generation; open the current generation's file; when an
offset is present, seek to `start`, decode one record from there, and
return its value (`Command::value` panics on a `Remove`, and a decode
failure panics with "bad offset"; both are modelled as errors, and are
unreachable under the engine invariant). -/
def kvGet (st : KvState) (k : List Nat) : Except KvError (Option (List Nat)) :=
  match dirGet st.dir (logName st.gen) with
  | none => .error .ioError
  | some f =>
      match idxLookup st.index k with
      | none => .ok none
      | some (s, _) =>
          match decCmd (f.drop s) with
          | some (.set _ v, _) => .ok (some v)
          | some (.remove _, _) => .error .ioError
          | none => .error .serdeError

/- ---------------------------------------------------------------------
Operation sequences and the engine invariant.
--------------------------------------------------------------------- -/

/-- A mutating operation of the `KvsEngine` interface. -/
inductive Op where
  | set (k v : List Nat)
  | remove (k : List Nat)
  | clear
  deriving DecidableEq, Repr

/-- One serialized mutation on the engine. -/
def stepOp : Op → KvState → Except KvError Unit × KvState
  | .set k v, st => kvSet k v st
  | .remove k, st => kvRemove k st
  | .clear, st => kvClear st

/-- Run a sequence of mutations, keeping each step's state (errors leave
the state the operation produced, as in the source). -/
def runOps (ops : List Op) (st : KvState) : KvState :=
  ops.foldl (fun s op => (stepOp op s).2) st

/-- `u64` bounds on an operation's strings. -/
def opWf : Op → Prop
  | .set k v => k.length < 2 ^ 64 ∧ v.length < 2 ^ 64
  | .remove _ => True
  | .clear => True

/-- `op` does not mutate key `k` (it is a `set`/`remove` of another key;
`clear` mutates every key). -/
def notMutating (k : List Nat) : Op → Prop
  | .set k' _ => ¬(k' = k)
  | .remove k' => ¬(k' = k)
  | .clear => False

/-- A single index entry is sound with respect to file contents `f`:
the record it points at lies inside `f` and its bytes decode to a `Set`
of exactly that key. -/
def entryOkF (f : List Nat) (k : List Nat) (s e : Nat) : Prop :=
  s ≤ e ∧ e ≤ f.length ∧
    match decCmd ((f.drop s).take (e - s)) with
    | some (.set k' _, rest) => k' = k ∧ rest = []
    | _ => False

instance (f k : List Nat) (s e : Nat) : Decidable (entryOkF f k s e) := by
  unfold entryOkF
  rcases decCmd ((f.drop s).take (e - s)) with _ | ⟨c, r⟩
  · infer_instance
  · rcases c with ⟨k', v⟩ | k' <;> simp <;> infer_instance

/-- Engine invariant (spec §3 invariant 1): the active log file exists,
index keys are unique, and every index entry points at a well-formed `Set`
record of its key inside the active file. -/
def WF (st : KvState) : Prop :=
  (dirGet st.dir (logName st.gen)).isSome ∧
    (idxKeys st.index).Nodup ∧
    ∀ k s e, idxLookup st.index k = some (s, e) → entryOkF (activeFile st) k s e

/-- Membership form of the invariant: decidable on a concrete state. -/
def WFmem (st : KvState) : Prop :=
  (dirGet st.dir (logName st.gen)).isSome ∧
    (idxKeys st.index).Nodup ∧
    ∀ p ∈ st.index, entryOkF (activeFile st) p.1 p.2.1 p.2.2

instance (st : KvState) : Decidable (WFmem st) := by
  unfold WFmem; infer_instance

/-- The value the live state associates with `k`: the value of the `Set`
record its index entry denotes, if any. -/
def liveVal (st : KvState) (k : List Nat) : Option (List Nat) :=
  match idxLookup st.index k with
  | none => none
  | some (s, e) =>
      match decCmd (((activeFile st).drop s).take (e - s)) with
      | some (.set _ v, _) => some v
      | _ => none

/-- The engine round-trips a single binding through a fresh directory and
a reopen: from `open` on an empty directory, `set key val` succeeds, a
`get key` returns the value, and after reopening the produced directory
`get key` still returns it. -/
def emptyRoundTrip (key val : List Nat) : Prop :=
  match kvOpen [] with
  | .ok st0 =>
      (kvSet key val st0).1 = .ok () ∧
      kvGet (kvSet key val st0).2 key = .ok (some val) ∧
      (match kvOpen ((kvSet key val st0).2).dir with
       | .ok st2 => kvGet st2 key = .ok (some val)
       | .error _ => False)
  | .error _ => False

deriving instance DecidableEq for Except

/- ---------------------------------------------------------------------
Association list lemmas (shared by the index and the directory model).
--------------------------------------------------------------------- -/

theorem lookup_nil {β : Type} (k : List Nat) :
    List.lookup k ([] : List (List Nat × β)) = none := rfl

theorem lookup_cons {β : Type} (k k' : List Nat) (v : β) (l : List (List Nat × β)) :
    List.lookup k ((k', v) :: l) = if k = k' then some v else List.lookup k l := by
  simp only [List.lookup]
  by_cases h : k = k'
  · simp [h]
  · simp [h, beq_eq_false_iff_ne.2 h]

theorem lookup_eraseKeyFn {β : Type} (k m : List Nat) (l : List (List Nat × β)) :
    List.lookup k (eraseKeyFn m l) = if k = m then none else List.lookup k l := by
  induction l with
  | nil => by_cases h : k = m <;> simp [eraseKeyFn, h]
  | cons p l ih =>
      obtain ⟨k', v⟩ := p
      show List.lookup k (if k' = m then eraseKeyFn m l else (k', v) :: eraseKeyFn m l) = _
      by_cases hk : k' = m
      · rw [if_pos hk, ih, lookup_cons]
        by_cases h : k = m
        · simp [h]
        · have hkk : ¬(k = k') := fun he => h (he.trans hk)
          simp [h, hkk]
      · rw [if_neg hk, lookup_cons, lookup_cons, ih]
        by_cases h : k = k'
        · have hkm : ¬(k = m) := fun he => hk ((h.symm).trans he)
          simp [h, hkm, hk]
        · have hmk : ¬(m = k') := fun he => hk he.symm
          by_cases h2 : k = m <;> simp [h, h2, hmk]

theorem keys_eraseKeyFn_sublist {β : Type} (m : List Nat) (l : List (List Nat × β)) :
    ((eraseKeyFn m l).map (·.1)).Sublist (l.map (·.1)) := by
  induction l with
  | nil => simp [eraseKeyFn]
  | cons p l ih =>
      obtain ⟨k', v⟩ := p
      show ((if k' = m then eraseKeyFn m l else (k', v) :: eraseKeyFn m l).map (·.1)).Sublist _
      by_cases hk : k' = m
      · rw [if_pos hk, List.map_cons]
        exact ih.cons _
      · rw [if_neg hk, List.map_cons, List.map_cons]
        exact ih.cons₂ _

theorem keys_eraseKeyFn_nodup {β : Type} (m : List Nat) (l : List (List Nat × β))
    (h : (l.map (·.1)).Nodup) : ((eraseKeyFn m l).map (·.1)).Nodup :=
  (keys_eraseKeyFn_sublist m l).nodup h

theorem not_mem_keys_eraseKeyFn {β : Type} (m : List Nat) (l : List (List Nat × β)) :
    m ∉ (eraseKeyFn m l).map (·.1) := by
  induction l with
  | nil => simp [eraseKeyFn]
  | cons p l ih =>
      obtain ⟨k', v⟩ := p
      show m ∉ (if k' = m then eraseKeyFn m l else (k', v) :: eraseKeyFn m l).map (·.1)
      by_cases hk : k' = m
      · rw [if_pos hk]; exact ih
      · rw [if_neg hk, List.map_cons]
        intro hmem
        rcases List.mem_cons.1 hmem with h | h
        · exact hk h.symm
        · exact ih h

theorem lookup_eq_none_of_not_mem_keys {β : Type} (k : List Nat)
    (l : List (List Nat × β)) (h : k ∉ l.map (·.1)) : List.lookup k l = none := by
  induction l with
  | nil => rfl
  | cons p l ih =>
      obtain ⟨k', v⟩ := p
      rw [List.map_cons] at h
      have h1 : ¬(k = k') := fun he => h (he ▸ List.mem_cons_self _ _)
      have h2 : k ∉ l.map (·.1) := fun hm => h (List.mem_cons_of_mem _ hm)
      rw [lookup_cons, if_neg h1]
      exact ih h2

theorem lookup_of_mem_nodup {β : Type} (k : List Nat) (v : β)
    (l : List (List Nat × β)) (hd : (l.map (·.1)).Nodup) (hm : (k, v) ∈ l) :
    List.lookup k l = some v := by
  induction l with
  | nil => cases hm
  | cons p l ih =>
      obtain ⟨k', v'⟩ := p
      rw [List.map_cons, List.nodup_cons] at hd
      rcases List.mem_cons.1 hm with h | h
      · cases h
        simp [lookup_cons]
      · have hk : ¬(k = k') := by
          intro he; subst he
          exact hd.1 (by simpa using List.mem_map_of_mem (·.1) h)
        rw [lookup_cons]
        simp [hk, ih hd.2 h]

theorem mem_of_lookup_eq_some {β : Type} {k : List Nat} {v : β}
    {l : List (List Nat × β)} (h : List.lookup k l = some v) : (k, v) ∈ l := by
  induction l with
  | nil => cases h
  | cons p l ih =>
      obtain ⟨k', v'⟩ := p
      rw [lookup_cons] at h
      by_cases hk : k = k'
      · simp [hk] at h
        subst hk; subst h
        exact List.mem_cons_self _ _
      · simp [hk] at h
        exact List.mem_cons_of_mem _ (ih h)

/- ---------------------------------------------------------------------
Index operation lemmas.
--------------------------------------------------------------------- -/

theorem idxLookup_insert (idx : Idx) (k k' : List Nat) (v : Nat × Nat) :
    idxLookup (idxInsert k v idx) k' =
      if k' = k then some v else idxLookup idx k' := by
  unfold idxLookup idxInsert idxErase
  rw [lookup_cons, lookup_eraseKeyFn]
  by_cases h : k' = k <;> simp [h]

theorem idxLookup_erase (idx : Idx) (k k' : List Nat) :
    idxLookup (idxErase k idx) k' =
      if k' = k then none else idxLookup idx k' := by
  unfold idxLookup idxErase
  rw [lookup_eraseKeyFn]

theorem idxKeys_nodup_erase (k : List Nat) (idx : Idx)
    (h : (idxKeys idx).Nodup) : (idxKeys (idxErase k idx)).Nodup :=
  keys_eraseKeyFn_nodup k idx h

theorem idxKeys_nodup_insert (k : List Nat) (v : Nat × Nat) (idx : Idx)
    (h : (idxKeys idx).Nodup) : (idxKeys (idxInsert k v idx)).Nodup := by
  unfold idxInsert idxKeys idxErase
  rw [List.map_cons]
  exact List.nodup_cons.2 ⟨not_mem_keys_eraseKeyFn k idx, keys_eraseKeyFn_nodup k idx h⟩

/- ---------------------------------------------------------------------
Codec round trip: the decoder recovers exactly the bytes the encoder
wrote, leaving the remainder untouched.
--------------------------------------------------------------------- -/

theorem beBytes_length (k n : Nat) : (beBytes k n).length = k := by
  induction k generalizing n with
  | zero => rfl
  | succ k ih => simp [beBytes, ih]

theorem beNat_append_one (l : List Nat) (b : Nat) :
    beNat (l ++ [b]) = beNat l * 256 + b := by
  simp [beNat, List.foldl_append]

theorem beNat_beBytes (k n : Nat) (h : n < 256 ^ k) :
    beNat (beBytes k n) = n := by
  induction k generalizing n with
  | zero =>
      have : n = 0 := by simpa using Nat.lt_one_iff.1 (by simpa using h)
      simp [this, beBytes, beNat]
  | succ k ih =>
      have hdiv : n / 256 < 256 ^ k := by
        rw [Nat.div_lt_iff_lt_mul (by norm_num : 0 < 256)]
        calc n < 256 ^ (k + 1) := h
        _ = 256 ^ k * 256 := by ring
      rw [beBytes, beNat_append_one, ih _ hdiv]
      omega

theorem rBytes_enc (s r : List Nat) : rBytes s.length (s ++ r) = some (s, r) := by
  unfold rBytes
  rw [if_pos (by simp)]
  rw [List.take_left, List.drop_left]

theorem rBytes_exact (n : Nat) (s r : List Nat) (h : s.length = n) :
    rBytes n (s ++ r) = some (s, r) := by
  subst h
  exact rBytes_enc s r

theorem decLen_enc (maj n : Nat) (r : List Nat) (h : n < 2 ^ 64) :
    decLen maj (cborHead maj n ++ r) = some (n, r) := by
  unfold cborHead decLen
  by_cases h1 : n < 24
  · rw [if_pos h1]
    simp only [List.cons_append, List.nil_append, dBind, rByte]
    rw [if_pos (by omega : (maj * 32 + n) / 32 = maj)]
    rw [if_pos (by omega : (maj * 32 + n) % 32 < 24)]
    show some ((maj * 32 + n) % 32, r) = some (n, r)
    have : (maj * 32 + n) % 32 = n := by omega
    rw [this]
  · rw [if_neg h1]
    by_cases h2 : n < 2 ^ 8
    · rw [if_pos h2]
      simp only [List.append_assoc, List.cons_append, List.nil_append, dBind, rByte]
      rw [if_pos (by omega : (maj * 32 + 24) / 32 = maj)]
      rw [if_neg (by omega : ¬((maj * 32 + 24) % 32 < 24))]
      rw [if_pos (by omega : (maj * 32 + 24) % 32 = 24)]
      simp only [dBind]
      rw [rBytes_exact 1 (beBytes 1 n) r (beBytes_length 1 n)]
      simp [dPure, beNat_beBytes 1 n (by simpa using h2)]
    · rw [if_neg h2]
      by_cases h3 : n < 2 ^ 16
      · rw [if_pos h3]
        simp only [List.append_assoc, List.cons_append, List.nil_append, dBind, rByte]
        rw [if_pos (by omega : (maj * 32 + 25) / 32 = maj)]
        rw [if_neg (by omega : ¬((maj * 32 + 25) % 32 < 24))]
        rw [if_neg (by omega : ¬((maj * 32 + 25) % 32 = 24))]
        rw [if_pos (by omega : (maj * 32 + 25) % 32 = 25)]
        simp only [dBind]
        rw [rBytes_exact 2 (beBytes 2 n) r (beBytes_length 2 n)]
        simp [dPure, beNat_beBytes 2 n (by norm_num at h3 ⊢; omega)]
      · rw [if_neg h3]
        by_cases h4 : n < 2 ^ 32
        · rw [if_pos h4]
          simp only [List.append_assoc, List.cons_append, List.nil_append, dBind, rByte]
          rw [if_pos (by omega : (maj * 32 + 26) / 32 = maj)]
          rw [if_neg (by omega : ¬((maj * 32 + 26) % 32 < 24))]
          rw [if_neg (by omega : ¬((maj * 32 + 26) % 32 = 24))]
          rw [if_neg (by omega : ¬((maj * 32 + 26) % 32 = 25))]
          rw [if_pos (by omega : (maj * 32 + 26) % 32 = 26)]
          simp only [dBind]
          rw [rBytes_exact 4 (beBytes 4 n) r (beBytes_length 4 n)]
          simp [dPure, beNat_beBytes 4 n (by norm_num at h4 ⊢; omega)]
        · rw [if_neg h4]
          simp only [List.append_assoc, List.cons_append, List.nil_append, dBind, rByte]
          rw [if_pos (by omega : (maj * 32 + 27) / 32 = maj)]
          rw [if_neg (by omega : ¬((maj * 32 + 27) % 32 < 24))]
          rw [if_neg (by omega : ¬((maj * 32 + 27) % 32 = 24))]
          rw [if_neg (by omega : ¬((maj * 32 + 27) % 32 = 25))]
          rw [if_neg (by omega : ¬((maj * 32 + 27) % 32 = 26))]
          rw [if_pos (by omega : (maj * 32 + 27) % 32 = 27)]
          simp only [dBind]
          rw [rBytes_exact 8 (beBytes 8 n) r (beBytes_length 8 n)]
          simp [dPure, beNat_beBytes 8 n (by norm_num at h ⊢; omega)]

theorem decText_enc (s r : List Nat) (h : s.length < 2 ^ 64) :
    decText (encText s ++ r) = some (s, r) := by
  unfold decText encText
  show dBind (decLen 3) rBytes ((cborHead 3 s.length ++ s) ++ r) = _
  rw [List.append_assoc]
  simp only [dBind]
  rw [decLen_enc 3 s.length (s ++ r) h]
  exact rBytes_enc s r

theorem dBind_eq {α β : Type} (p : Dec α) (q : α → Dec β) (l : List Nat)
    (a : α) (r : List Nat) (hp : p l = some (a, r)) : dBind p q l = q a r := by
  simp [dBind, hp]

theorem decCmd_enc (c : Command) (r : List Nat) (h : cmdWf c) :
    decCmd (encCmd c ++ r) = some (c, r) := by
  cases c with
  | set k v =>
      obtain ⟨hk, hv⟩ := h
      unfold decCmd encCmd
      simp only [List.append_assoc]
      rw [dBind_eq _ _ _ _ _ (decLen_enc 5 1 _ (by norm_num))]
      rw [if_pos rfl]
      rw [dBind_eq _ _ _ _ _ (decText_enc tagSet _ (by decide))]
      rw [if_pos rfl]
      rw [dBind_eq _ _ _ _ _ (decLen_enc 5 2 _ (by norm_num))]
      rw [if_pos rfl]
      rw [dBind_eq _ _ _ _ _ (decText_enc fieldKey _ (by decide))]
      rw [if_pos rfl]
      rw [dBind_eq _ _ _ _ _ (decText_enc k _ hk)]
      rw [dBind_eq _ _ _ _ _ (decText_enc fieldValue _ (by decide))]
      rw [if_pos rfl]
      rw [dBind_eq _ _ _ _ _ (decText_enc v _ hv)]
      rfl
  | remove k =>
      unfold decCmd encCmd
      simp only [List.append_assoc]
      rw [dBind_eq _ _ _ _ _ (decLen_enc 5 1 _ (by norm_num))]
      rw [if_pos rfl]
      rw [dBind_eq _ _ _ _ _ (decText_enc tagRemove _ (by decide))]
      rw [if_neg (by decide), if_pos rfl]
      rw [dBind_eq _ _ _ _ _ (decLen_enc 5 1 _ (by norm_num))]
      rw [if_pos rfl]
      rw [dBind_eq _ _ _ _ _ (decText_enc fieldKey _ (by decide))]
      rw [if_pos rfl]
      rw [dBind_eq _ _ _ _ _ (decText_enc k _ h)]
      rfl

/- ---------------------------------------------------------------------
Consumption: a decoder's result depends only on the bytes it consumed, so
a successful decode splits the input into a consumed part and the
remainder, and appending anything after the consumed part re-decodes to
the same value.
--------------------------------------------------------------------- -/

/-- The decoder `p` consumes a well-defined part of its input. -/
def Consumes {α : Type} (p : Dec α) : Prop :=
  ∀ l a r, p l = some (a, r) →
    ∃ c, l = c ++ r ∧ ∀ e, p (c ++ e) = some (a, e)

theorem consumes_dPure {α : Type} (a : α) : Consumes (dPure a) := by
  intro l a' r h
  simp [dPure] at h
  obtain ⟨h1, h2⟩ := h
  subst h1; subst h2
  exact ⟨[], by simp [dPure]⟩

theorem consumes_dFail {α : Type} : Consumes (dFail : Dec α) := by
  intro l a r h
  simp [dFail] at h

theorem consumes_rByte : Consumes rByte := by
  intro l a r h
  cases l with
  | nil => simp [rByte] at h
  | cons b bs =>
      have hb : some (b, bs) = some (a, r) := h
      injection hb with h1
      injection h1 with h2 h3
      subst h2; subst h3
      exact ⟨[b], rfl, fun e => rfl⟩

theorem consumes_rBytes (n : Nat) : Consumes (rBytes n) := by
  intro l a r h
  unfold rBytes at h
  by_cases hn : n ≤ l.length
  · rw [if_pos hn] at h
    simp at h
    obtain ⟨h1, h2⟩ := h
    subst h1; subst h2
    refine ⟨l.take n, (List.take_append_drop n l).symm, fun e => ?_⟩
    have hlen : (l.take n).length = n := by simp [hn]
    exact rBytes_exact n (l.take n) e hlen
  · rw [if_neg hn] at h
    cases h

theorem consumes_dBind {α β : Type} (p : Dec α) (q : α → Dec β)
    (hp : Consumes p) (hq : ∀ a, Consumes (q a)) : Consumes (dBind p q) := by
  intro l b r h
  unfold dBind at h
  cases hpl : p l with
  | none => rw [hpl] at h; cases h
  | some ar =>
      obtain ⟨a, r1⟩ := ar
      rw [hpl] at h
      obtain ⟨c1, hc1, he1⟩ := hp l a r1 hpl
      obtain ⟨c2, hc2, he2⟩ := hq a r1 b r h
      refine ⟨c1 ++ c2, ?_, fun e => ?_⟩
      · rw [hc1, hc2, List.append_assoc]
      · show dBind p q ((c1 ++ c2) ++ e) = _
        rw [List.append_assoc]
        unfold dBind
        rw [he1 (c2 ++ e)]
        exact he2 e

theorem consumes_ite {α : Type} (c : Prop) [Decidable c] (p q : Dec α)
    (hp : Consumes p) (hq : Consumes q) : Consumes (if c then p else q) := by
  split <;> assumption

theorem consumes_decLen (maj : Nat) : Consumes (decLen maj) := by
  unfold decLen
  refine consumes_dBind _ _ consumes_rByte fun h => ?_
  refine consumes_ite _ _ _ ?_ consumes_dFail
  refine consumes_ite _ _ _ (consumes_dPure _) ?_
  refine consumes_ite _ _ _ (consumes_dBind _ _ (consumes_rBytes 1) fun bs => consumes_dPure _) ?_
  refine consumes_ite _ _ _ (consumes_dBind _ _ (consumes_rBytes 2) fun bs => consumes_dPure _) ?_
  refine consumes_ite _ _ _ (consumes_dBind _ _ (consumes_rBytes 4) fun bs => consumes_dPure _) ?_
  exact consumes_ite _ _ _ (consumes_dBind _ _ (consumes_rBytes 8) fun bs => consumes_dPure _) consumes_dFail

theorem consumes_decText : Consumes decText := by
  unfold decText
  exact consumes_dBind _ _ (consumes_decLen 3) fun n => consumes_rBytes n

theorem consumes_decCmd : Consumes decCmd := by
  unfold decCmd
  refine consumes_dBind _ _ (consumes_decLen 5) fun m => ?_
  refine consumes_ite _ _ _ ?_ consumes_dFail
  refine consumes_dBind _ _ consumes_decText fun tag => ?_
  refine consumes_ite _ _ _ ?_ ?_
  · refine consumes_dBind _ _ (consumes_decLen 5) fun m2 => ?_
    refine consumes_ite _ _ _ ?_ consumes_dFail
    refine consumes_dBind _ _ consumes_decText fun f1 => ?_
    refine consumes_ite _ _ _ ?_ consumes_dFail
    refine consumes_dBind _ _ consumes_decText fun k => ?_
    refine consumes_dBind _ _ consumes_decText fun f2 => ?_
    refine consumes_ite _ _ _ ?_ consumes_dFail
    exact consumes_dBind _ _ consumes_decText fun v => consumes_dPure _
  · refine consumes_ite _ _ _ ?_ consumes_dFail
    refine consumes_dBind _ _ (consumes_decLen 5) fun m2 => ?_
    refine consumes_ite _ _ _ ?_ consumes_dFail
    refine consumes_dBind _ _ consumes_decText fun f1 => ?_
    refine consumes_ite _ _ _ ?_ consumes_dFail
    exact consumes_dBind _ _ consumes_decText fun k => consumes_dPure _

theorem decCmd_nil : decCmd [] = none := rfl

/-- A successful decode consumes at least one byte. -/
theorem decCmd_consume_pos {l : List Nat} {a : Command} {r : List Nat}
    (h : decCmd l = some (a, r)) : r.length < l.length := by
  obtain ⟨c, hc, he⟩ := consumes_decCmd l a r h
  cases c with
  | nil =>
      exfalso
      have h2 := he []
      rw [List.nil_append] at h2
      rw [decCmd_nil] at h2
      cases h2
  | cons x xs =>
      rw [hc]
      simp only [List.length_append, List.length_cons]
      omega

/-- No strict nonempty truncation of an encoded record decodes. -/
theorem decCmd_take_none (c : Command) (n : Nat) (h : cmdWf c)
    (h0 : 0 < n) (hn : n < (encCmd c).length) :
    decCmd ((encCmd c).take n) = none := by
  cases hd : decCmd ((encCmd c).take n) with
  | none => rfl
  | some ar =>
      obtain ⟨a, r⟩ := ar
      obtain ⟨c0, hc0, he⟩ := consumes_decCmd _ a r hd
      exfalso
      have hfull : decCmd (c0 ++ (r ++ (encCmd c).drop n)) = some (a, r ++ (encCmd c).drop n) :=
        he _
      have hsplit : c0 ++ (r ++ (encCmd c).drop n) = encCmd c := by
        rw [← List.append_assoc, ← hc0, List.take_append_drop]
      rw [hsplit] at hfull
      have henc : decCmd (encCmd c) = some (c, []) := by
        have := decCmd_enc c [] h
        simpa using this
      rw [henc] at hfull
      injection hfull with h1
      injection h1 with h2 h3
      have h4 : (encCmd c).drop n = [] := (List.append_eq_nil.1 h3.symm).2
      have h5 : (encCmd c).length ≤ n := List.drop_eq_nil_iff.1 h4
      omega

/- ---------------------------------------------------------------------
Replay loop: relating `buildIndex` on encoded logs to `replayLog`.
--------------------------------------------------------------------- -/

theorem encCmd_length_pos (c : Command) : 0 < (encCmd c).length := by
  cases c <;>
    · rw [encCmd]
      rw [show cborHead 5 1 = [161] from rfl]
      simp

theorem encLog_nil : encLog [] = [] := rfl

theorem encLog_cons (c : Command) (cs : List Command) :
    encLog (c :: cs) = encCmd c ++ encLog cs := by
  simp [encLog]

theorem encLog_length_ge (cmds : List Command) :
    cmds.length ≤ (encLog cmds).length := by
  induction cmds with
  | nil => simp [encLog_nil]
  | cons c cs ih =>
      rw [encLog_cons]
      simp only [List.length_append, List.length_cons]
      have := encCmd_length_pos c
      omega

theorem biLoop_ne_nil (fuel : Nat) (bytes : List Nat) (hb : bytes ≠ [])
    (start : Nat) (idx : Idx) (stale : Nat) :
    biLoop (fuel + 1) bytes start idx stale =
      match decCmd bytes with
      | none => .error .serdeError
      | some (c, rest) =>
          match applyCmd c start (start + (bytes.length - rest.length)) idx stale with
          | .error err => .error err
          | .ok (idx', stale') =>
              biLoop fuel rest (start + (bytes.length - rest.length)) idx' stale' := by
  cases bytes with
  | nil => exact absurd rfl hb
  | cons b bs => rfl

theorem biLoop_encLog (cmds : List Command) (h : ∀ c ∈ cmds, cmdWf c) :
    ∀ (m : Nat) (z : List Nat) (start : Nat) (idx : Idx) (stale : Nat),
      biLoop (cmds.length + m) (encLog cmds ++ z) start idx stale =
        match replayLog cmds start idx stale with
        | .error e => .error e
        | .ok (i, s) => biLoop m z (start + (encLog cmds).length) i s := by
  induction cmds with
  | nil =>
      intro m z start idx stale
      simp [encLog_nil, replayLog]
  | cons c cs ih =>
      intro m z start idx stale
      have hc : cmdWf c := h c (List.mem_cons_self _ _)
      have hcs : ∀ x ∈ cs, cmdWf x := fun x hx => h x (List.mem_cons_of_mem _ hx)
      rw [encLog_cons, List.append_assoc]
      have hne : encCmd c ++ (encLog cs ++ z) ≠ [] := by
        intro hnil
        have hpos := encCmd_length_pos c
        obtain ⟨h1, -⟩ := List.append_eq_nil.1 hnil
        rw [h1] at hpos
        simp at hpos
      have hfuel : (c :: cs).length + m = (cs.length + m) + 1 := by
        simp only [List.length_cons]
        omega
      rw [hfuel, biLoop_ne_nil _ _ hne, decCmd_enc c _ hc]
      simp only [List.length_append, Nat.add_sub_cancel]
      show (match applyCmd c start (start + (encCmd c).length) idx stale with
        | Except.error err => Except.error err
        | Except.ok (idx', stale') =>
            biLoop (cs.length + m) (encLog cs ++ z) (start + (encCmd c).length) idx' stale') = _
      have hrepl : replayLog (c :: cs) start idx stale =
          match applyCmd c start (start + (encCmd c).length) idx stale with
          | Except.error err => Except.error err
          | Except.ok (idx', stale') =>
              replayLog cs (start + (encCmd c).length) idx' stale' := rfl
      rw [hrepl]
      cases happ : applyCmd c start (start + (encCmd c).length) idx stale with
      | error err => rfl
      | ok p =>
          obtain ⟨i1, s1⟩ := p
          show biLoop (cs.length + m) (encLog cs ++ z) (start + (encCmd c).length) i1 s1 =
            match replayLog cs (start + (encCmd c).length) i1 s1 with
            | Except.error err => Except.error err
            | Except.ok (i, s) =>
                biLoop m z (start + ((encCmd c).length + (encLog cs).length)) i s
          rw [ih hcs m z (start + (encCmd c).length) i1 s1]
          cases hr2 : replayLog cs (start + (encCmd c).length) i1 s1 with
          | error e2 => rfl
          | ok p2 =>
              obtain ⟨i2, s2⟩ := p2
              show biLoop m z ((start + (encCmd c).length) + (encLog cs).length) i2 s2 =
                biLoop m z (start + ((encCmd c).length + (encLog cs).length)) i2 s2
              rw [Nat.add_assoc]

theorem buildIndex_fuel_split (cmds : List Command) (z : List Nat)
    (h : ∀ c ∈ cmds, cmdWf c) :
    buildIndex (encLog cmds ++ z) =
      match replayLog cmds 0 [] 0 with
      | .error e => .error e
      | .ok (i, s) =>
          biLoop ((encLog cmds ++ z).length + 1 - cmds.length) z (encLog cmds).length i s := by
  unfold buildIndex
  have hge : cmds.length ≤ (encLog cmds ++ z).length + 1 := by
    have := encLog_length_ge cmds
    simp only [List.length_append]
    omega
  have hm : (encLog cmds ++ z).length + 1 =
      cmds.length + ((encLog cmds ++ z).length + 1 - cmds.length) := by omega
  conv_lhs => rw [hm]
  rw [biLoop_encLog cmds h]
  simp only [Nat.zero_add]

theorem biLoop_nil (fuel start : Nat) (idx : Idx) (stale : Nat) :
    biLoop fuel [] start idx stale = .ok (idx, stale) := by
  cases fuel <;> rfl

theorem buildIndex_encLog (cmds : List Command) (h : ∀ c ∈ cmds, cmdWf c) :
    buildIndex (encLog cmds) = replayLog cmds 0 [] 0 := by
  have hsplit := buildIndex_fuel_split cmds [] h
  rw [List.append_nil] at hsplit
  rw [hsplit]
  cases hr : replayLog cmds 0 [] 0 with
  | error e => rfl
  | ok p =>
      obtain ⟨i, s⟩ := p
      simp [biLoop_nil]

/- ---------------------------------------------------------------------
Byte-slice helpers.
--------------------------------------------------------------------- -/

theorem slice_append_right (f g : List Nat) (s e : Nat) (he : e ≤ f.length) :
    (((f ++ g).drop s).take (e - s)) = ((f.drop s).take (e - s)) := by
  by_cases hs : s ≤ f.length
  · rw [List.drop_append_of_le_length hs]
    have hlen : e - s ≤ (f.drop s).length := by
      simp only [List.length_drop]
      omega
    rw [List.take_append_of_le_length hlen]
  · have h1 : e - s = 0 := by omega
    simp [h1]

theorem drop_split_at (f : List Nat) (s e : Nat) (hs : s ≤ e) (he : e ≤ f.length) :
    f.drop s = (f.drop s).take (e - s) ++ f.drop e := by
  have h1 := List.take_append_drop (e - s) (f.drop s)
  rw [List.drop_drop] at h1
  rw [show s + (e - s) = e from by omega] at h1
  exact h1.symm

theorem length_slice (f : List Nat) (s e : Nat) (hs : s ≤ e) (he : e ≤ f.length) :
    ((f.drop s).take (e - s)).length = e - s := by
  simp only [List.length_take, List.length_drop]
  omega

/- ---------------------------------------------------------------------
Replay establishes the entry invariant over the replayed file.
--------------------------------------------------------------------- -/

theorem biLoop_inv (f : List Nat) :
    ∀ (fuel : Nat) (bytes : List Nat) (start : Nat) (idx : Idx) (stale : Nat)
      (idx' : Idx) (stale' : Nat),
      bytes = f.drop start → start ≤ f.length →
      (idxKeys idx).Nodup →
      (∀ k s e, idxLookup idx k = some (s, e) → entryOkF f k s e) →
      biLoop fuel bytes start idx stale = .ok (idx', stale') →
      (idxKeys idx').Nodup ∧
        ∀ k s e, idxLookup idx' k = some (s, e) → entryOkF f k s e := by
  intro fuel
  induction fuel with
  | zero =>
      intro bytes start idx stale idx' stale' hb hs hnd hwf hrun
      cases bytes with
      | nil =>
          rw [biLoop_nil] at hrun
          injection hrun with h1
          injection h1 with h2 h3
          subst h2
          exact ⟨hnd, hwf⟩
      | cons b bs => cases hrun
  | succ fuel ih =>
      intro bytes start idx stale idx' stale' hb hs hnd hwf hrun
      cases bytes with
      | nil =>
          rw [biLoop_nil] at hrun
          injection hrun with h1
          injection h1 with h2 h3
          subst h2
          exact ⟨hnd, hwf⟩
      | cons b bs =>
          rw [biLoop_ne_nil fuel _ (by simp) start idx stale] at hrun
          cases hdec : decCmd (b :: bs) with
          | none => rw [hdec] at hrun; cases hrun
          | some p =>
              obtain ⟨c, rest⟩ := p
              rw [hdec] at hrun
              obtain ⟨c0, hc0, he0⟩ := consumes_decCmd _ _ _ hdec
              have hc0len : (b :: bs).length = c0.length + rest.length := by
                rw [hc0]; simp
              replace hrun : (match applyCmd c start
                    (start + ((b :: bs).length - rest.length)) idx stale with
                | Except.error err => Except.error err
                | Except.ok (i2, s2) =>
                    biLoop fuel rest (start + ((b :: bs).length - rest.length)) i2 s2) =
                  Except.ok (idx', stale') := hrun
              have he_eq : start + ((b :: bs).length - rest.length) =
                  start + c0.length := by omega
              rw [he_eq] at hrun
              have hbl : (b :: bs).length = f.length - start := by
                rw [hb]; simp
              have heF : start + c0.length ≤ f.length := by omega
              have hc0slice : (f.drop start).take (start + c0.length - start) = c0 := by
                rw [show start + c0.length - start = c0.length from by omega]
                rw [← hb, hc0, List.take_left]
              have hrest_eq : rest = f.drop (start + c0.length) := by
                rw [← List.drop_drop, ← hb, hc0]
                rw [List.drop_left]
              have hdec_c0 : decCmd c0 = some (c, []) := by
                have h1 := he0 []
                rw [List.append_nil] at h1
                exact h1
              cases c with
              | set k v =>
                  rw [show applyCmd (.set k v) start (start + c0.length) idx stale =
                    .ok (idxInsert k (start, start + c0.length) idx,
                      stale + (match idxLookup idx k with
                        | some old => old.2 - old.1
                        | none => 0)) from rfl] at hrun
                  refine ih rest (start + c0.length) _ _ idx' stale' hrest_eq heF
                    (idxKeys_nodup_insert _ _ _ hnd) ?_ hrun
                  intro k' s e hlk
                  rw [idxLookup_insert] at hlk
                  by_cases hkk : k' = k
                  · rw [if_pos hkk] at hlk
                    injection hlk with h1
                    injection h1 with h2 h3
                    subst h2; subst h3
                    refine ⟨by omega, heF, ?_⟩
                    rw [hc0slice, hdec_c0]
                    exact ⟨hkk.symm, rfl⟩
                  · rw [if_neg hkk] at hlk
                    exact hwf k' s e hlk
              | remove k =>
                  cases hlk : idxLookup idx k with
                  | none =>
                      rw [show applyCmd (.remove k) start (start + c0.length) idx stale =
                        match idxLookup idx k with
                        | none => .error .corruptData
                        | some old => .ok (idxErase k idx, stale + (old.2 - old.1))
                        from rfl, hlk] at hrun
                      cases hrun
                  | some old =>
                      rw [show applyCmd (.remove k) start (start + c0.length) idx stale =
                        match idxLookup idx k with
                        | none => .error .corruptData
                        | some old => .ok (idxErase k idx, stale + (old.2 - old.1))
                        from rfl, hlk] at hrun
                      refine ih rest (start + c0.length) _ _ idx' stale' hrest_eq heF
                        (idxKeys_nodup_erase _ _ hnd) ?_ hrun
                      intro k' s e hlk2
                      rw [idxLookup_erase] at hlk2
                      by_cases hkk : k' = k
                      · rw [if_pos hkk] at hlk2; cases hlk2
                      · rw [if_neg hkk] at hlk2
                        exact hwf k' s e hlk2

/-- `build_index` on arbitrary file bytes yields an index that satisfies
the per-entry invariant with respect to those bytes. -/
theorem buildIndex_inv (f : List Nat) (idx : Idx) (stale : Nat)
    (h : buildIndex f = .ok (idx, stale)) :
    (idxKeys idx).Nodup ∧ ∀ k s e, idxLookup idx k = some (s, e) → entryOkF f k s e := by
  refine biLoop_inv f (f.length + 1) f 0 [] 0 idx stale (by simp) (by simp) (by simp [idxKeys]) ?_ h
  intro k s e hlk
  cases hlk

/- ---------------------------------------------------------------------
Directory lemmas.
--------------------------------------------------------------------- -/

theorem dirGet_dirSet_self (d : Dir) (n c : List Nat) :
    dirGet (dirSet d n c) n = some c := by
  unfold dirGet dirSet
  rw [lookup_cons, if_pos rfl]

theorem dirGet_dirSet_ne (d : Dir) (n c m : List Nat) (h : ¬(m = n)) :
    dirGet (dirSet d n c) m = dirGet d m := by
  unfold dirGet dirSet
  rw [lookup_cons, if_neg h, lookup_eraseKeyFn, if_neg h]

theorem dirGet_foldl_dirRemove (L : List (List Nat)) (d : Dir) (n : List Nat)
    (h : n ∉ L) : dirGet (L.foldl dirRemove d) n = dirGet d n := by
  induction L generalizing d with
  | nil => rfl
  | cons m L ih =>
      have hn : ¬(n = m) := fun he => h (he ▸ List.mem_cons_self _ _)
      have hL : n ∉ L := fun hm => h (List.mem_cons_of_mem _ hm)
      rw [List.foldl_cons, ih _ hL]
      unfold dirRemove dirGet
      rw [lookup_eraseKeyFn, if_neg hn]

/- ---------------------------------------------------------------------
File-name lemmas: no file of stem `cbor` can start with `kvs_`, so the
directory scan of `all_log_files` never matches a real log file.
--------------------------------------------------------------------- -/

theorem fileStem_cbor_head (n : List Nat) (h : fileStem n = cborBytes) :
    ∃ t, n = 99 :: t := by
  cases n with
  | nil =>
      exfalso
      unfold fileStem lastDot at h
      cases h
  | cons a l =>
      unfold fileStem at h
      cases hld : lastDot (a :: l) with
      | none =>
          rw [hld] at h
          injection h with h1 h2
          exact ⟨l, by rw [h1]⟩
      | some i =>
          rw [hld] at h
          cases i with
          | zero =>
              replace h : a :: l = cborBytes := h
              injection h with h1 h2
              exact ⟨l, by rw [h1]⟩
          | succ j =>
              replace h : (a :: l).take (j + 1) = cborBytes := h
              rw [List.take_succ_cons] at h
              injection h with h1 h2
              exact ⟨l, by rw [h1]⟩

theorem isPrefixOf_kvs_false (n : List Nat) (h : fileStem n = cborBytes) :
    kvsUnd.isPrefixOf n = false := by
  obtain ⟨t, ht⟩ := fileStem_cbor_head n h
  subst ht
  rfl

theorem mem_allLogFiles_stem {names : List (List Nat)} {pres : Option Nat}
    {n : List Nat} (h : n ∈ allLogFiles names pres) : fileStem n = cborBytes := by
  unfold allLogFiles at h
  have h2 := (List.mem_filter.1 h).2
  have h3 : (fileStem n == cborBytes) = true := by
    cases pres with
    | none => simpa using h2
    | some g => exact (Bool.and_eq_true ..▸ h2).1
  exact beq_iff_eq.1 h3

/-- The generation scan of `open` returns 0 on every directory whatsoever:
`all_log_files` keeps only names whose `file_stem` is literally `cbor`,
and such a name can never also start with `kvs_`. -/
theorem openGen_eq_zero (names : List (List Nat)) : openGen names = 0 := by
  unfold openGen
  have h1 : (allLogFiles names none).filter (fun n => kvsUnd.isPrefixOf n) = [] := by
    rw [List.filter_eq_nil_iff]
    intro n hn
    rw [isPrefixOf_kvs_false n (mem_allLogFiles_stem hn)]
    simp
  rw [h1]
  rfl

/- ---------------------------------------------------------------------
`kvs_<gen>.cbor` itself is never matched by `all_log_files` (its stem is
`kvs_<gen>`, not `cbor`), so no cleanup pass ever deletes a generation
file.
--------------------------------------------------------------------- -/

theorem decRepAux_digits (fuel : Nat) :
    ∀ (n : Nat), ∀ b ∈ decRepAux fuel n, 48 ≤ b ∧ b ≤ 57 := by
  induction fuel with
  | zero =>
      intro n b hb
      simp [decRepAux] at hb
  | succ fuel ih =>
      intro n b hb
      unfold decRepAux at hb
      by_cases h : n < 10
      · rw [if_pos h] at hb
        simp at hb
        omega
      · rw [if_neg h] at hb
        rcases List.mem_append.1 hb with h1 | h1
        · exact ih _ b h1
        · simp at h1
          omega

theorem lastDot_eq_none (l : List Nat) (h : 46 ∉ l) : lastDot l = none := by
  induction l with
  | nil => rfl
  | cons a l ih =>
      have ha : ¬(a = 46) := fun he => h (he ▸ List.mem_cons_self _ _)
      have hl : 46 ∉ l := fun hm => h (List.mem_cons_of_mem _ hm)
      unfold lastDot
      rw [ih hl, if_neg ha]

theorem lastDot_cons (a : Nat) (l : List Nat) :
    lastDot (a :: l) =
      match lastDot l with
      | some i => some (i + 1)
      | none => if a = 46 then some 0 else none := rfl

theorem lastDot_append (x y : List Nat) :
    lastDot (x ++ y) =
      match lastDot y with
      | some i => some (x.length + i)
      | none => lastDot x := by
  induction x with
  | nil =>
      rw [show ([] : List Nat) ++ y = y from rfl]
      cases hy : lastDot y with
      | some i => show some i = some (0 + i); rw [Nat.zero_add]
      | none => rfl
  | cons a x ih =>
      rw [show (a :: x) ++ y = a :: (x ++ y) from rfl, lastDot_cons, ih, lastDot_cons]
      cases hy : lastDot y with
      | some i =>
          show some (x.length + i + 1) = some ((a :: x).length + i)
          rw [List.length_cons]
          congr 1
          omega
      | none => rfl

theorem lastDot_logName (g : Nat) :
    lastDot (logName g) = some ((decRep g).length + 4) := by
  have hnd : 46 ∉ decRep g := by
    intro hm
    have := decRepAux_digits (g + 1) g 46 hm
    omega
  have hdd : lastDot (decRep g) = none := lastDot_eq_none _ hnd
  unfold logName
  rw [show kvsUnd ++ decRep g ++ [46] ++ cborBytes =
    kvsUnd ++ (decRep g ++ ([46] ++ cborBytes)) from by simp [List.append_assoc]]
  rw [lastDot_append, lastDot_append]
  rw [show lastDot ([46] ++ cborBytes) = some 0 from rfl]
  rw [hdd]
  show some (kvsUnd.length + ((decRep g).length + 0)) = some ((decRep g).length + 4)
  rw [show kvsUnd.length = 4 from rfl]
  congr 1
  omega

theorem fileStem_logName (g : Nat) : fileStem (logName g) = kvsUnd ++ decRep g := by
  unfold fileStem
  rw [lastDot_logName]
  show (logName g).take ((decRep g).length + 4) = kvsUnd ++ decRep g
  unfold logName
  rw [show kvsUnd ++ decRep g ++ [46] ++ cborBytes =
    (kvsUnd ++ decRep g) ++ ([46] ++ cborBytes) from by simp [List.append_assoc]]
  rw [show (decRep g).length + 4 = (kvsUnd ++ decRep g).length from by
    rw [List.length_append, show kvsUnd.length = 4 from rfl]
    omega]
  exact List.take_left _ _

theorem logName_not_mem_allLogFiles (g : Nat) (names : List (List Nat))
    (pres : Option Nat) : logName g ∉ allLogFiles names pres := by
  intro hmem
  have hst := mem_allLogFiles_stem hmem
  rw [fileStem_logName] at hst
  rw [show kvsUnd ++ decRep g = 107 :: ([118, 115, 95] ++ decRep g) from rfl] at hst
  rw [show cborBytes = 99 :: [98, 111, 114] from rfl] at hst
  injection hst with h1 h2
  omega

/- ---------------------------------------------------------------------
The engine invariant: establishment by `open`, use by `get`.
--------------------------------------------------------------------- -/

theorem entryOkF_append (f g k : List Nat) (s e : Nat)
    (h : entryOkF f k s e) : entryOkF (f ++ g) k s e := by
  obtain ⟨h1, h2, h3⟩ := h
  refine ⟨h1, by simp only [List.length_append]; omega, ?_⟩
  rw [slice_append_right f g s e h2]
  exact h3


theorem kvOpen_WF (d : Dir) (st : KvState) (h : kvOpen d = .ok st) : WF st := by
  unfold kvOpen at h
  simp only [] at h
  cases hdg : dirGet d (logName (openGen (dirNames d))) with
  | some f0 =>
      rw [hdg] at h
      simp only [Option.isSome_some, if_true, Option.getD_some] at h
      rw [hdg] at h
      simp only [Option.getD_some] at h
      cases hb : buildIndex f0 with
      | error e => rw [hb] at h; cases h
      | ok p =>
          obtain ⟨idx, stale⟩ := p
          rw [hb] at h
          injection h with h1
          subst h1
          obtain ⟨hnd, hent⟩ := buildIndex_inv f0 idx stale hb
          refine ⟨?_, hnd, ?_⟩
          · show (dirGet d (logName (openGen (dirNames d)))).isSome = true
            rw [hdg]
            rfl
          · intro k s e hlk
            have hact : activeFile
                { dir := d, gen := openGen (dirNames d),
                  index := idx, staleBytes := stale } = f0 := by
              unfold activeFile
              show (dirGet d (logName (openGen (dirNames d)))).getD [] = f0
              rw [hdg]
              rfl
            rw [hact]
            exact hent k s e hlk
  | none =>
      rw [hdg] at h
      simp only [Option.isSome_none, Bool.false_eq_true, if_false] at h
      rw [dirGet_dirSet_self] at h
      simp only [Option.getD_some] at h
      rw [show buildIndex [] = .ok ([], 0) from rfl] at h
      injection h with h1
      subst h1
      refine ⟨?_, by simp [idxKeys], ?_⟩
      · show (dirGet (dirSet d (logName (openGen (dirNames d))) [])
          (logName (openGen (dirNames d)))).isSome = true
        rw [dirGet_dirSet_self]
        rfl
      · intro k s e hlk
        simp [idxLookup] at hlk

theorem kvGet_liveVal (st : KvState) (hwf : WF st) (k : List Nat) :
    kvGet st k = .ok (liveVal st k) := by
  obtain ⟨hfile, hnd, hent⟩ := hwf
  cases hdg : dirGet st.dir (logName st.gen) with
  | none => rw [hdg] at hfile; cases hfile
  | some f =>
      have hact : activeFile st = f := by
        unfold activeFile
        rw [hdg]
        rfl
      unfold kvGet
      rw [hdg]
      cases hlk : idxLookup st.index k with
      | none =>
          have hlv : liveVal st k = none := by
            unfold liveVal
            rw [hlk]
          rw [hlv]
      | some se =>
          obtain ⟨s, e⟩ := se
          obtain ⟨hse, hef, hdec⟩ := hent k s e hlk
          rw [hact] at hdec
          rw [hact] at hef
          cases hd2 : decCmd ((f.drop s).take (e - s)) with
          | none => rw [hd2] at hdec; cases hdec
          | some p =>
              obtain ⟨c, r⟩ := p
              rw [hd2] at hdec
              cases c with
              | remove k0 => cases hdec
              | set k0 v =>
                  obtain ⟨hk0, hr⟩ := hdec
                  subst hr
                  obtain ⟨c0, hc0, he0⟩ := consumes_decCmd _ _ _ hd2
                  rw [List.append_nil] at hc0
                  have hdrop : decCmd (f.drop s) = some (.set k0 v, f.drop e) := by
                    rw [drop_split_at f s e hse hef, hc0]
                    exact he0 (f.drop e)
                  have hlv : liveVal st k = some v := by
                    unfold liveVal
                    rw [hlk]
                    show (match decCmd (((activeFile st).drop s).take (e - s)) with
                      | some (Command.set _ v, _) => some v
                      | _ => none) = some v
                    rw [hact, hd2]
                  rw [hlv]
                  show (match decCmd (f.drop s) with
                    | some (Command.set _ v, _) => Except.ok (some v)
                    | some (Command.remove _, _) => Except.error KvError.ioError
                    | none => Except.error KvError.serdeError) = Except.ok (some v)
                  rw [hdrop]

/- ---------------------------------------------------------------------
State lemmas for `set`, `remove` and `clear`.
--------------------------------------------------------------------- -/

theorem setMain_activeFile (st : KvState) (k v : List Nat) :
    activeFile (setMain k v st) = activeFile st ++ encCmd (.set k v) := by
  unfold activeFile setMain
  rw [dirGet_dirSet_self]
  rfl

theorem setMain_WF (st : KvState) (k v : List Nat) (hwf : WF st)
    (hk : k.length < 2 ^ 64) (hv : v.length < 2 ^ 64) : WF (setMain k v st) := by
  obtain ⟨hfile, hnd, hent⟩ := hwf
  refine ⟨?_, idxKeys_nodup_insert _ _ _ hnd, ?_⟩
  · show (dirGet (dirSet st.dir (logName st.gen)
      (activeFile st ++ encCmd (.set k v))) (logName st.gen)).isSome = true
    rw [dirGet_dirSet_self]
    rfl
  · intro k' s e hlk
    replace hlk : idxLookup (idxInsert k ((activeFile st).length,
        (activeFile st).length + (encCmd (.set k v)).length) st.index) k' =
        some (s, e) := hlk
    rw [idxLookup_insert] at hlk
    rw [setMain_activeFile]
    by_cases hkk : k' = k
    · rw [if_pos hkk] at hlk
      injection hlk with h1
      injection h1 with h2 h3
      subst h2
      subst h3
      refine ⟨Nat.le_add_right _ _, by simp, ?_⟩
      rw [Nat.add_sub_cancel_left, List.drop_left, List.take_length]
      have hd := decCmd_enc (.set k v) [] ⟨hk, hv⟩
      rw [List.append_nil] at hd
      rw [hd]
      exact ⟨hkk.symm, rfl⟩
    · rw [if_neg hkk] at hlk
      exact entryOkF_append _ _ _ _ _ (hent k' s e hlk)

theorem setMain_live (st : KvState) (k v : List Nat)
    (hk : k.length < 2 ^ 64) (hv : v.length < 2 ^ 64) :
    liveVal (setMain k v st) k = some v := by
  unfold liveVal
  rw [show (setMain k v st).index = idxInsert k ((activeFile st).length,
    (activeFile st).length + (encCmd (.set k v)).length) st.index from rfl]
  rw [idxLookup_insert, if_pos rfl]
  show (match decCmd (((activeFile (setMain k v st)).drop (activeFile st).length).take
      ((activeFile st).length + (encCmd (.set k v)).length - (activeFile st).length)) with
    | some (Command.set _ v, _) => some v
    | _ => none) = some v
  rw [setMain_activeFile, Nat.add_sub_cancel_left, List.drop_left, List.take_length]
  have hd := decCmd_enc (.set k v) [] ⟨hk, hv⟩
  rw [List.append_nil] at hd
  rw [hd]

theorem setMain_live_ne (st : KvState) (k v k' : List Nat) (hwf : WF st)
    (hne : ¬(k' = k)) : liveVal (setMain k v st) k' = liveVal st k' := by
  obtain ⟨hfile, hnd, hent⟩ := hwf
  unfold liveVal
  rw [show (setMain k v st).index = idxInsert k ((activeFile st).length,
    (activeFile st).length + (encCmd (.set k v)).length) st.index from rfl]
  rw [idxLookup_insert, if_neg hne]
  cases hlk : idxLookup st.index k' with
  | none => rfl
  | some se =>
      obtain ⟨s, e⟩ := se
      obtain ⟨hse, hef, hdec⟩ := hent k' s e hlk
      show (match decCmd (((activeFile (setMain k v st)).drop s).take (e - s)) with
        | some (Command.set _ v, _) => some v
        | _ => none) =
        (match decCmd (((activeFile st).drop s).take (e - s)) with
        | some (Command.set _ v, _) => some v
        | _ => none)
      rw [setMain_activeFile, slice_append_right _ _ _ _ hef]

theorem removeMain_activeFile (st : KvState) (k : List Nat) (old : Nat × Nat) :
    activeFile (removeMain k old st) = activeFile st ++ encCmd (.remove k) := by
  unfold activeFile removeMain
  rw [dirGet_dirSet_self]
  rfl

theorem removeMain_WF (st : KvState) (k : List Nat) (old : Nat × Nat)
    (hwf : WF st) : WF (removeMain k old st) := by
  obtain ⟨hfile, hnd, hent⟩ := hwf
  refine ⟨?_, idxKeys_nodup_erase _ _ hnd, ?_⟩
  · show (dirGet (dirSet st.dir (logName st.gen)
      (activeFile st ++ encCmd (.remove k))) (logName st.gen)).isSome = true
    rw [dirGet_dirSet_self]
    rfl
  · intro k' s e hlk
    replace hlk : idxLookup (idxErase k st.index) k' = some (s, e) := hlk
    rw [idxLookup_erase] at hlk
    rw [removeMain_activeFile]
    by_cases hkk : k' = k
    · rw [if_pos hkk] at hlk
      cases hlk
    · rw [if_neg hkk] at hlk
      exact entryOkF_append _ _ _ _ _ (hent k' s e hlk)

theorem removeMain_live (st : KvState) (k : List Nat) (old : Nat × Nat) :
    liveVal (removeMain k old st) k = none := by
  unfold liveVal
  rw [show (removeMain k old st).index = idxErase k st.index from rfl]
  rw [idxLookup_erase, if_pos rfl]

theorem removeMain_live_ne (st : KvState) (k k' : List Nat) (old : Nat × Nat)
    (hwf : WF st) (hne : ¬(k' = k)) :
    liveVal (removeMain k old st) k' = liveVal st k' := by
  obtain ⟨hfile, hnd, hent⟩ := hwf
  unfold liveVal
  rw [show (removeMain k old st).index = idxErase k st.index from rfl]
  rw [idxLookup_erase, if_neg hne]
  cases hlk : idxLookup st.index k' with
  | none => rfl
  | some se =>
      obtain ⟨s, e⟩ := se
      obtain ⟨hse, hef, hdec⟩ := hent k' s e hlk
      show (match decCmd (((activeFile (removeMain k old st)).drop s).take (e - s)) with
        | some (Command.set _ v, _) => some v
        | _ => none) =
        (match decCmd (((activeFile st).drop s).take (e - s)) with
        | some (Command.set _ v, _) => some v
        | _ => none)
      rw [removeMain_activeFile, slice_append_right _ _ _ _ hef]

theorem kvClear_WF (st : KvState) : WF ((kvClear st).2) := by
  refine ⟨?_, ?_, ?_⟩
  · show (dirGet (dirSet ((allLogFiles (dirNames st.dir)
      (some st.gen)).foldl dirRemove st.dir) (logName st.gen) [])
      (logName st.gen)).isSome = true
    rw [dirGet_dirSet_self]
    rfl
  · show (idxKeys ([] : Idx)).Nodup
    simp [idxKeys]
  · intro k s e hlk
    replace hlk : idxLookup ([] : Idx) k = some (s, e) := hlk
    cases hlk

theorem kvClear_live (st : KvState) (k : List Nat) :
    liveVal ((kvClear st).2) k = none := by
  unfold liveVal
  rw [show ((kvClear st).2).index = ([] : Idx) from rfl]
  rw [show idxLookup (([] : Idx)) k = none from rfl]

/- ---------------------------------------------------------------------
Compaction: the copy loop writes exactly the live records, and the
republished index points at them.
--------------------------------------------------------------------- -/

theorem mem_keys_exists_lookup {β : Type} (k : List Nat) (l : List (List Nat × β))
    (h : k ∈ l.map (·.1)) : ∃ v, List.lookup k l = some v := by
  induction l with
  | nil => cases h
  | cons p rest ih =>
      obtain ⟨k0, v0⟩ := p
      by_cases hkk : k = k0
      · exact ⟨v0, by rw [lookup_cons, if_pos hkk]⟩
      · have h2 : k ∈ rest.map (·.1) := by
          rcases List.mem_cons.1 h with h1 | h1
          · exact absurd h1 hkk
          · exact h1
        obtain ⟨v, hv⟩ := ih h2
        exact ⟨v, by rw [lookup_cons, if_neg hkk]; exact hv⟩

theorem keys_mkOffs (entries : List (List Nat × (Nat × Nat))) :
    ∀ base, (mkOffs entries base).map (·.1) = entries.map (·.1) := by
  induction entries with
  | nil => intro base; rfl
  | cons p rest ih =>
      obtain ⟨k0, s0, e0⟩ := p
      intro base
      show ((k0, (base, base + (e0 - s0))) :: mkOffs rest (base + (e0 - s0))).map (·.1) =
        ((k0, (s0, e0)) :: rest).map (·.1)
      rw [List.map_cons, List.map_cons, ih]

theorem foldl_idxInsert_nodup (offs : List (List Nat × (Nat × Nat))) :
    ∀ init : Idx, (idxKeys init).Nodup →
      (idxKeys (offs.foldl (fun i p => idxInsert p.1 p.2 i) init)).Nodup := by
  induction offs with
  | nil => intro init h; exact h
  | cons p rest ih =>
      intro init h
      rw [List.foldl_cons]
      exact ih _ (idxKeys_nodup_insert _ _ _ h)

theorem foldl_idxInsert_lookup (offs : List (List Nat × (Nat × Nat)))
    (hnd : (idxKeys offs).Nodup) :
    ∀ (init : Idx) (k : List Nat),
      idxLookup (offs.foldl (fun i p => idxInsert p.1 p.2 i) init) k =
        match idxLookup offs k with
        | some v => some v
        | none => idxLookup init k := by
  induction offs with
  | nil => intro init k; rfl
  | cons p rest ih =>
      obtain ⟨k0, v0⟩ := p
      intro init k
      have hnd2 : (idxKeys rest).Nodup ∧ k0 ∉ idxKeys rest := by
        unfold idxKeys at hnd ⊢
        rw [List.map_cons, List.nodup_cons] at hnd
        exact ⟨hnd.2, hnd.1⟩
      rw [List.foldl_cons, ih hnd2.1 (idxInsert k0 v0 init) k]
      replace hgoal : idxLookup ((k0, v0) :: rest) k =
          if k = k0 then some v0 else idxLookup rest k := lookup_cons k k0 v0 rest
      rw [hgoal]
      by_cases hkk : k = k0
      · rw [if_pos hkk]
        have hre : idxLookup rest k = none := by
          unfold idxLookup
          exact lookup_eq_none_of_not_mem_keys k rest (hkk ▸ hnd2.2)
        rw [hre, idxLookup_insert, if_pos hkk]
      · rw [if_neg hkk]
        cases hlr : idxLookup rest k with
        | some v => rfl
        | none =>
            rw [idxLookup_insert, if_neg hkk]

theorem compactCopy_eq (f : List Nat) (entries : List (List Nat × (Nat × Nat)))
    (h : ∀ p ∈ entries, p.2.1 ≤ p.2.2 ∧ p.2.2 ≤ f.length) :
    ∀ (acc : List Nat) (offs : List (List Nat × (Nat × Nat))),
      compactCopy f entries acc offs =
        .ok (acc ++ catSlices f entries, offs ++ mkOffs entries acc.length) := by
  induction entries with
  | nil =>
      intro acc offs
      show Except.ok (acc, offs) = _
      rw [show catSlices f [] = [] from rfl, show mkOffs [] acc.length = [] from rfl]
      rw [List.append_nil, List.append_nil]
  | cons p rest ih =>
      obtain ⟨k0, s0, e0⟩ := p
      intro acc offs
      have hp := h (k0, (s0, e0)) (List.mem_cons_self _ _)
      have hs0 : s0 ≤ e0 := hp.1
      have he0 : e0 ≤ f.length := hp.2
      have hrest := fun q hq => h q (List.mem_cons_of_mem _ hq)
      have hlen0 : ((f.drop s0).take (e0 - s0)).length = e0 - s0 :=
        length_slice f s0 e0 hs0 he0
      show compactCopy f ((k0, (s0, e0)) :: rest) acc offs = _
      unfold compactCopy
      rw [if_pos (by omega : e0 - s0 ≤ f.length - s0)]
      rw [ih hrest]
      rw [show catSlices f ((k0, (s0, e0)) :: rest) =
        (f.drop s0).take (e0 - s0) ++ catSlices f rest from rfl]
      rw [show mkOffs ((k0, (s0, e0)) :: rest) acc.length =
        (k0, (acc.length, acc.length + (e0 - s0))) ::
          mkOffs rest (acc.length + (e0 - s0)) from rfl]
      rw [show (acc ++ (f.drop s0).take (e0 - s0)).length =
        acc.length + (e0 - s0) from by rw [List.length_append, hlen0]]
      rw [List.append_assoc, List.append_assoc, List.singleton_append]

theorem mkOffs_lookup (f : List Nat) (entries : List (List Nat × (Nat × Nat)))
    (hok : ∀ p ∈ entries, p.2.1 ≤ p.2.2 ∧ p.2.2 ≤ f.length) :
    ∀ (base : Nat) (k : List Nat) (s e : Nat),
      idxLookup entries k = some (s, e) →
      ∃ a, idxLookup (mkOffs entries base) k = some (a, a + (e - s)) ∧
        a + (e - s) ≤ base + (catSlices f entries).length ∧
        ∀ (pre post : List Nat), pre.length = base →
          (((pre ++ catSlices f entries ++ post).drop a).take (e - s)) =
            ((f.drop s).take (e - s)) := by
  induction entries with
  | nil =>
      intro base k s e hlk
      cases hlk
  | cons p rest ih =>
      obtain ⟨k0, s0, e0⟩ := p
      intro base k s e hlk
      have hp := hok (k0, (s0, e0)) (List.mem_cons_self _ _)
      have hs0 : s0 ≤ e0 := hp.1
      have he0 : e0 ≤ f.length := hp.2
      have hrest := fun q hq => hok q (List.mem_cons_of_mem _ hq)
      have hlen0 : ((f.drop s0).take (e0 - s0)).length = e0 - s0 :=
        length_slice f s0 e0 hs0 he0
      have hcatc : catSlices f ((k0, (s0, e0)) :: rest) =
          (f.drop s0).take (e0 - s0) ++ catSlices f rest := rfl
      replace hlk : List.lookup k ((k0, (s0, e0)) :: rest) = some (s, e) := hlk
      rw [lookup_cons] at hlk
      by_cases hkk : k = k0
      · rw [if_pos hkk] at hlk
        have h2 : s = s0 := by
          injection hlk with h1
          injection h1 with ha hb
          exact ha.symm
        have h3 : e = e0 := by
          injection hlk with h1
          injection h1 with ha hb
          exact hb.symm
        rw [h2, h3]
        refine ⟨base, ?_, ?_, ?_⟩
        · show List.lookup k ((k0, (base, base + (e0 - s0))) ::
            mkOffs rest (base + (e0 - s0))) = some (base, base + (e0 - s0))
          rw [lookup_cons, if_pos hkk]
        · rw [hcatc, List.length_append, hlen0]
          omega
        · intro pre post hpre
          rw [hcatc]
          rw [show pre ++ ((f.drop s0).take (e0 - s0) ++ catSlices f rest) ++ post =
            pre ++ ((f.drop s0).take (e0 - s0) ++ (catSlices f rest ++ post)) from by
              simp [List.append_assoc]]
          rw [← hpre, List.drop_left]
          rw [List.take_left' hlen0]
      · rw [if_neg hkk] at hlk
        obtain ⟨a, h1, h2, h3⟩ := ih hrest (base + (e0 - s0)) k s e hlk
        refine ⟨a, ?_, ?_, ?_⟩
        · show List.lookup k ((k0, (base, base + (e0 - s0))) ::
            mkOffs rest (base + (e0 - s0))) = some (a, a + (e - s))
          rw [lookup_cons, if_neg hkk]
          exact h1
        · rw [hcatc, List.length_append, hlen0]
          omega
        · intro pre post hpre
          have hlen2 : (pre ++ (f.drop s0).take (e0 - s0)).length = base + (e0 - s0) := by
            rw [List.length_append, hpre, hlen0]
          have h4 := h3 (pre ++ (f.drop s0).take (e0 - s0)) post hlen2
          rw [hcatc]
          rw [show pre ++ ((f.drop s0).take (e0 - s0) ++ catSlices f rest) ++ post =
            (pre ++ (f.drop s0).take (e0 - s0)) ++ catSlices f rest ++ post from by
              simp [List.append_assoc]]
          exact h4

theorem compaction_ok (st : KvState) (hwf : WF st) (st' : KvState)
    (h : compaction st = .ok st') :
    WF st' ∧ st'.gen = st.gen + 1 ∧ ∀ k, liveVal st' k = liveVal st k := by
  obtain ⟨hfile, hnd, hent⟩ := hwf
  have hmem : ∀ p ∈ st.index, p.2.1 ≤ p.2.2 ∧ p.2.2 ≤ (activeFile st).length := by
    intro p hp
    have hm2 : (p.1, p.2) ∈ st.index := by rw [Prod.mk.eta]; exact hp
    have hlk : idxLookup st.index p.1 = some (p.2.1, p.2.2) := by
      rw [Prod.mk.eta]
      exact lookup_of_mem_nodup p.1 p.2 st.index hnd hm2
    obtain ⟨h1, h2, _⟩ := hent p.1 p.2.1 p.2.2 hlk
    exact ⟨h1, h2⟩
  unfold compaction at h
  cases hscr : dirGet st.dir scratchName with
  | some c =>
      rw [hscr] at h
      simp only [Option.isSome_some, if_true] at h
      cases h
  | none =>
      rw [hscr] at h
      simp only [Option.isSome_none, Bool.false_eq_true, if_false] at h
      rw [compactCopy_eq (activeFile st) st.index hmem [] []] at h
      simp only [List.nil_append, List.length_nil] at h
      replace h : Except.ok ({
          dir := (allLogFiles (dirNames (dirSet st.dir (logName (st.gen + 1))
              (catSlices (activeFile st) st.index))) (some (st.gen + 1))).foldl
            dirRemove (dirSet st.dir (logName (st.gen + 1))
              (catSlices (activeFile st) st.index)),
          gen := st.gen + 1,
          index := (mkOffs st.index 0).foldl
            (fun i p => idxInsert p.1 p.2 i) st.index,
          staleBytes := 0 } : KvState) = Except.ok st' := h
      injection h with h1
      have hdir : st'.dir = (allLogFiles (dirNames (dirSet st.dir
          (logName (st.gen + 1)) (catSlices (activeFile st) st.index)))
          (some (st.gen + 1))).foldl dirRemove
          (dirSet st.dir (logName (st.gen + 1))
            (catSlices (activeFile st) st.index)) := by rw [← h1]
      have hgen : st'.gen = st.gen + 1 := by rw [← h1]
      have hidx : st'.index = (mkOffs st.index 0).foldl
          (fun i p => idxInsert p.1 p.2 i) st.index := by rw [← h1]
      have hdg2 : dirGet ((allLogFiles (dirNames (dirSet st.dir (logName (st.gen + 1))
            (catSlices (activeFile st) st.index))) (some (st.gen + 1))).foldl
          dirRemove (dirSet st.dir (logName (st.gen + 1))
            (catSlices (activeFile st) st.index))) (logName (st.gen + 1)) =
          some (catSlices (activeFile st) st.index) := by
        rw [dirGet_foldl_dirRemove _ _ _ (logName_not_mem_allLogFiles _ _ _)]
        rw [dirGet_dirSet_self]
      have hact2 : activeFile st' = catSlices (activeFile st) st.index := by
        unfold activeFile
        rw [hdir, hgen, hdg2]
        rfl
      have hndO : (idxKeys (mkOffs st.index 0)).Nodup := by
        unfold idxKeys
        rw [keys_mkOffs]
        exact hnd
      have hLP := foldl_idxInsert_lookup (mkOffs st.index 0) hndO st.index
      have hnonePres : ∀ k, idxLookup st.index k = none →
          idxLookup (mkOffs st.index 0) k = none := by
        intro k hk
        unfold idxLookup
        apply lookup_eq_none_of_not_mem_keys
        rw [keys_mkOffs]
        intro hmemk
        obtain ⟨v, hv⟩ := mem_keys_exists_lookup k st.index hmemk
        unfold idxLookup at hk
        rw [hk] at hv
        cases hv
      refine ⟨⟨?_, ?_, ?_⟩, hgen, ?_⟩
      · rw [hdir, hgen, hdg2]
        rfl
      · rw [hidx]
        exact foldl_idxInsert_nodup _ _ hnd
      · intro k s' e' hlk'
        rw [hidx, hLP k] at hlk'
        cases hlkO : idxLookup (mkOffs st.index 0) k with
        | none =>
            rw [hlkO] at hlk'
            replace hlk' : idxLookup st.index k = some (s', e') := hlk'
            obtain ⟨a, hA, _, _⟩ :=
              mkOffs_lookup (activeFile st) st.index hmem 0 k s' e' hlk'
            rw [hlkO] at hA
            cases hA
        | some val =>
            rw [hlkO] at hlk'
            replace hlk' : some val = some (s', e') := hlk'
            have hkmem : k ∈ st.index.map (·.1) := by
              by_contra hnm
              have hz : idxLookup (mkOffs st.index 0) k = none := by
                unfold idxLookup
                apply lookup_eq_none_of_not_mem_keys
                rw [keys_mkOffs]
                exact hnm
              rw [hz] at hlkO
              cases hlkO
            obtain ⟨v0, hv0⟩ := mem_keys_exists_lookup k st.index hkmem
            obtain ⟨s, e⟩ := v0
            replace hv0 : idxLookup st.index k = some (s, e) := hv0
            obtain ⟨a, hA, hB, hC⟩ :=
              mkOffs_lookup (activeFile st) st.index hmem 0 k s e hv0
            rw [hlkO] at hA
            have hval : val = (a, a + (e - s)) := by
              injection hA with h2
            have hse' : s' = a ∧ e' = a + (e - s) := by
              rw [hval] at hlk'
              injection hlk' with h2
              injection h2 with h3 h4
              exact ⟨h3.symm, h4.symm⟩
            obtain ⟨hs'1, he'1⟩ := hse'
            rw [hs'1, he'1]
            have hC2 := hC [] [] rfl
            simp only [List.nil_append, List.append_nil] at hC2
            refine ⟨Nat.le_add_right _ _, ?_, ?_⟩
            · rw [hact2]
              simpa using hB
            · rw [hact2, Nat.add_sub_cancel_left, hC2]
              obtain ⟨_, _, hdec⟩ := hent k s e hv0
              exact hdec
      · intro k
        cases hlksrc : idxLookup st.index k with
        | none =>
            have hz : idxLookup st'.index k = none := by
              rw [hidx, hLP k, hnonePres k hlksrc]
              exact hlksrc
            unfold liveVal
            rw [hz, hlksrc]
        | some se =>
            obtain ⟨s, e⟩ := se
            obtain ⟨a, hA, hB, hC⟩ :=
              mkOffs_lookup (activeFile st) st.index hmem 0 k s e hlksrc
            have hz : idxLookup st'.index k = some (a, a + (e - s)) := by
              rw [hidx, hLP k, hA]
            unfold liveVal
            rw [hz, hlksrc]
            show (match decCmd (((activeFile st').drop a).take (a + (e - s) - a)) with
              | some (Command.set _ v, _) => some v
              | _ => none) =
              (match decCmd (((activeFile st).drop s).take (e - s)) with
              | some (Command.set _ v, _) => some v
              | _ => none)
            rw [Nat.add_sub_cancel_left, hact2]
            have hC2 := hC [] [] rfl
            simp only [List.nil_append, List.append_nil] at hC2
            rw [hC2]

/- ---------------------------------------------------------------------
Operation-level preservation.
--------------------------------------------------------------------- -/

theorem maybeCompact_cases (st1 : KvState) (P : KvState → Prop)
    (hmain : P st1) (hcomp : ∀ st2, compaction st1 = .ok st2 → P st2) :
    P ((if st1.staleBytes > COMPACTION_THRESHOLD then
        match compaction st1 with
        | Except.ok st2 => ((Except.ok () : Except KvError Unit), st2)
        | Except.error e => (Except.error e, st1)
      else (Except.ok (), st1)).2) := by
  by_cases hth : st1.staleBytes > COMPACTION_THRESHOLD
  · rw [if_pos hth]
    cases hc : compaction st1 with
    | ok st2 => exact hcomp st2 hc
    | error e => exact hmain
  · rw [if_neg hth]
    exact hmain

theorem kvSet_WF (st : KvState) (k v : List Nat) (hwf : WF st)
    (hk : k.length < 2 ^ 64) (hv : v.length < 2 ^ 64) : WF ((kvSet k v st).2) := by
  have h1 := setMain_WF st k v hwf hk hv
  exact maybeCompact_cases (setMain k v st) WF h1
    (fun st2 hc => (compaction_ok _ h1 st2 hc).1)

theorem kvSet_live (st : KvState) (k v : List Nat) (hwf : WF st)
    (hk : k.length < 2 ^ 64) (hv : v.length < 2 ^ 64) :
    liveVal ((kvSet k v st).2) k = some v := by
  have h1 := setMain_WF st k v hwf hk hv
  have h2 := setMain_live st k v hk hv
  exact maybeCompact_cases (setMain k v st) (fun s => liveVal s k = some v) h2
    (fun st2 hc => by
      show liveVal st2 k = _
      rw [(compaction_ok _ h1 st2 hc).2.2 k]
      exact h2)

theorem kvSet_live_ne (st : KvState) (k v k' : List Nat) (hwf : WF st)
    (hk : k.length < 2 ^ 64) (hv : v.length < 2 ^ 64) (hne : ¬(k' = k)) :
    liveVal ((kvSet k v st).2) k' = liveVal st k' := by
  have h1 := setMain_WF st k v hwf hk hv
  have h2 := setMain_live_ne st k v k' hwf hne
  exact maybeCompact_cases (setMain k v st) (fun s => liveVal s k' = liveVal st k') h2
    (fun st2 hc => by
      show liveVal st2 k' = _
      rw [(compaction_ok _ h1 st2 hc).2.2 k']
      exact h2)

theorem kvRemove_WF (st : KvState) (k : List Nat) (hwf : WF st) :
    WF ((kvRemove k st).2) := by
  unfold kvRemove
  cases hlk : idxLookup st.index k with
  | none => exact hwf
  | some old =>
      have h1 := removeMain_WF st k old hwf
      exact maybeCompact_cases (removeMain k old st) WF h1
        (fun st2 hc => (compaction_ok _ h1 st2 hc).1)

theorem kvRemove_live (st : KvState) (k : List Nat) (hwf : WF st) :
    liveVal ((kvRemove k st).2) k = none := by
  unfold kvRemove
  cases hlk : idxLookup st.index k with
  | none =>
      show liveVal st k = none
      unfold liveVal
      rw [hlk]
  | some old =>
      have h1 := removeMain_WF st k old hwf
      have h2 := removeMain_live st k old
      exact maybeCompact_cases (removeMain k old st) (fun s => liveVal s k = none) h2
        (fun st2 hc => by
      show liveVal st2 k = _
      rw [(compaction_ok _ h1 st2 hc).2.2 k]
      exact h2)

theorem kvRemove_live_ne (st : KvState) (k k' : List Nat) (hwf : WF st)
    (hne : ¬(k' = k)) : liveVal ((kvRemove k st).2) k' = liveVal st k' := by
  unfold kvRemove
  cases hlk : idxLookup st.index k with
  | none => rfl
  | some old =>
      have h1 := removeMain_WF st k old hwf
      have h2 := removeMain_live_ne st k k' old hwf hne
      exact maybeCompact_cases (removeMain k old st)
        (fun s => liveVal s k' = liveVal st k') h2
        (fun st2 hc => by
      show liveVal st2 k' = _
      rw [(compaction_ok _ h1 st2 hc).2.2 k']
      exact h2)

theorem stepOp_WF (st : KvState) (op : Op) (hwf : WF st) (hop : opWf op) :
    WF ((stepOp op st).2) := by
  cases op with
  | set k v => exact kvSet_WF st k v hwf hop.1 hop.2
  | remove k => exact kvRemove_WF st k hwf
  | clear => exact kvClear_WF st

theorem stepOp_live_notMut (st : KvState) (op : Op) (k : List Nat) (hwf : WF st)
    (hop : opWf op) (hnm : notMutating k op) :
    liveVal ((stepOp op st).2) k = liveVal st k := by
  cases op with
  | set k' v =>
      exact kvSet_live_ne st k' v k hwf hop.1 hop.2 (fun h => hnm h.symm)
  | remove k' =>
      exact kvRemove_live_ne st k' k hwf (fun h => hnm h.symm)
  | clear => cases hnm

theorem runOps_preserve (k : List Nat) (ops : List Op) :
    ∀ st : KvState, WF st → (∀ op ∈ ops, opWf op ∧ notMutating k op) →
      WF (runOps ops st) ∧ liveVal (runOps ops st) k = liveVal st k := by
  induction ops with
  | nil => intro st hwf _; exact ⟨hwf, rfl⟩
  | cons op ops ih =>
      intro st hwf hops
      have hop := hops op (List.mem_cons_self _ _)
      have hops2 := fun o ho => hops o (List.mem_cons_of_mem _ ho)
      have hstep := stepOp_WF st op hwf hop.1
      have hlive := stepOp_live_notMut st op k hwf hop.1 hop.2
      have hrun : runOps (op :: ops) st = runOps ops ((stepOp op st).2) := rfl
      rw [hrun]
      obtain ⟨hw2, hl2⟩ := ih ((stepOp op st).2) hstep hops2
      exact ⟨hw2, by rw [hl2, hlive]⟩

/- ---------------------------------------------------------------------
Claim theorems.
--------------------------------------------------------------------- -/

theorem kvOpen_gen_zero (d : Dir) (st : KvState) (h : kvOpen d = .ok st) :
    st.gen = 0 := by
  unfold kvOpen at h
  simp only [] at h
  rw [openGen_eq_zero (dirNames d)] at h
  cases hb : buildIndex ((dirGet (if (dirGet d (logName 0)).isSome then d
      else dirSet d (logName 0) []) (logName 0)).getD []) with
  | error e => rw [hb] at h; cases h
  | ok p =>
      obtain ⟨idx, stale⟩ := p
      rw [hb] at h
      injection h with h1
      rw [← h1]

/-- C1.  The generation scan of `open` yields 0 on every directory: the
`file_stem == "cbor"` comparison in `all_log_files` (an extension check
applied to the stem) matches no `kvs_<n>.cbor` file, so reopening always
replays `kvs_0.cbor` — after a compaction has moved the live data to a
higher generation, reopening does not read it. -/
theorem c1_reopen_always_generation_zero :
    (∀ names : List (List Nat), openGen names = 0) ∧
      (∀ (d : Dir) (st : KvState), kvOpen d = .ok st → st.gen = 0) :=
  ⟨openGen_eq_zero, kvOpen_gen_zero⟩

theorem c1_reopen_always_generation_zero_witness :
    openGen [[107, 118, 115, 95, 49, 46, 99, 98, 111, 114]] = 0 ∧
      (match kvOpen [([107, 118, 115, 95, 49, 46, 99, 98, 111, 114], [])] with
        | .ok st => st.gen = 0
        | .error _ => False) := by
  have hopen : kvOpen [([107, 118, 115, 95, 49, 46, 99, 98, 111, 114], [])] =
      .ok (⟨[([107, 118, 115, 95, 48, 46, 99, 98, 111, 114], []),
        ([107, 118, 115, 95, 49, 46, 99, 98, 111, 114], [])], 0, [], 0⟩ : KvState) := rfl
  have h2 := c1_reopen_always_generation_zero.2 _ _ hopen
  refine ⟨c1_reopen_always_generation_zero.1 _, ?_⟩
  rw [hopen]

/-- C2.  On a directory holding `kvs_3.cbor`, the startup scan of `open`
computes generation 0, while the spec's scan ("gen = max existing
generation") computes 3: `all_log_files` compares the file stem `kvs_3`
against `cbor` and so matches nothing. -/
theorem c2_open_gen_scan_mismatch :
    openGen [[107, 118, 115, 95, 51, 46, 99, 98, 111, 114]] = 0 ∧
      specMaxGen [[107, 118, 115, 95, 51, 46, 99, 98, 111, 114]] = 3 := by
  constructor <;> rfl

/-- C6.  `remove` of a key absent from the index fails with `KeyNotFound`
and returns the state unchanged: nothing is appended to the log and the
index, generation and stale-byte counter are untouched. -/
theorem c6_remove_absent_key_not_found (st : KvState) (k : List Nat)
    (h : idxLookup st.index k = none) :
    kvRemove k st = (.error .keyNotFound, st) := by
  unfold kvRemove
  rw [h]

theorem c6_remove_absent_key_not_found_witness :
    kvRemove [97] (⟨[([107, 118, 115, 95, 48, 46, 99, 98, 111, 114], [])],
        0, [], 0⟩ : KvState) =
      (.error .keyNotFound,
        (⟨[([107, 118, 115, 95, 48, 46, 99, 98, 111, 114], [])],
          0, [], 0⟩ : KvState)) :=
  c6_remove_absent_key_not_found _ [97] (by rfl)

/-- C7.  `clear()` succeeds but removes no other log file: opening a
directory that contains `kvs_7.cbor` and clearing leaves `kvs_7.cbor` in
place next to the zero-length active `kvs_0.cbor`, because
`all_log_files` (stem compared against `cbor`) selects nothing for
deletion. -/
theorem c7_clear_does_not_delete_other_logs :
    match kvOpen [([107, 118, 115, 95, 55, 46, 99, 98, 111, 114], [])] with
    | .ok st =>
        (kvClear st).1 = .ok () ∧
        dirGet ((kvClear st).2).dir [107, 118, 115, 95, 55, 46, 99, 98, 111, 114] =
          some [] ∧
        dirGet ((kvClear st).2).dir (logName 0) = some [] ∧
        liveVal ((kvClear st).2) [97] = none
    | .error _ => False := by
  have hopen : kvOpen [([107, 118, 115, 95, 55, 46, 99, 98, 111, 114], [])] =
      .ok (⟨[([107, 118, 115, 95, 48, 46, 99, 98, 111, 114], []),
        ([107, 118, 115, 95, 55, 46, 99, 98, 111, 114], [])], 0, [], 0⟩ : KvState) := rfl
  rw [hopen]
  exact ⟨rfl, rfl, rfl, rfl⟩

/-- C8, counterexample.  `open` on a directory holding only a leftover
`kvs_compact.cbor` succeeds but does not delete the scratch file: it is
still in the resulting directory. -/
theorem c8_open_keeps_scratch_counterexample :
    match kvOpen [(scratchName, [7])] with
    | .ok st => dirGet st.dir scratchName = some [7]
    | .error _ => False := by
  have hopen : kvOpen [(scratchName, [7])] =
      .ok (⟨[([107, 118, 115, 95, 48, 46, 99, 98, 111, 114], []),
        (scratchName, [7])], 0, [], 0⟩ : KvState) := rfl
  rw [hopen]
  rfl

/-- C8, amended.  `open` on a directory with a leftover
`kvs_compact.cbor` succeeds but leaves the scratch file in place, and a
later compaction's exclusive-create of the scratch path therefore fails
(with an I/O error) because of the leftover. -/
theorem c8_open_scratch_left_in_place (c : List Nat) :
    match kvOpen [(scratchName, c)] with
    | .ok st => dirGet st.dir scratchName = some c ∧ compaction st = .error .ioError
    | .error _ => False := by
  have hopen : kvOpen [(scratchName, c)] =
      .ok (⟨[([107, 118, 115, 95, 48, 46, 99, 98, 111, 114], []),
        (scratchName, c)], 0, [], 0⟩ : KvState) := rfl
  rw [hopen]
  exact ⟨rfl, rfl⟩

theorem encCmd_ne_nil (c : Command) : encCmd c ≠ [] := by
  intro h
  have := encCmd_length_pos c
  rw [h] at this
  simp at this

/-- C4.  During replay, a `Remove` record for a key with no index entry
makes `build_index` fail with the `CorruptData` error; when an entry
exists, its length is added to the stale-byte counter and the entry is
deleted. -/
theorem c4_replay_remove_record (cmds : List Command) (k : List Nat)
    (idx : Idx) (stale : Nat) (hwfc : ∀ c ∈ cmds, cmdWf c)
    (hk : k.length < 2 ^ 64)
    (hrep : replayLog cmds 0 [] 0 = .ok (idx, stale)) :
    (idxLookup idx k = none → ∀ rest : List Nat,
        buildIndex (encLog cmds ++ (encCmd (.remove k) ++ rest)) =
          .error .corruptData) ∧
    (∀ s e, idxLookup idx k = some (s, e) →
        buildIndex (encLog cmds ++ encCmd (.remove k)) =
          .ok (idxErase k idx, stale + (e - s))) := by
  constructor
  · intro hnone rest
    rw [buildIndex_fuel_split cmds (encCmd (.remove k) ++ rest) hwfc, hrep]
    show biLoop ((encLog cmds ++ (encCmd (.remove k) ++ rest)).length + 1 - cmds.length)
      (encCmd (.remove k) ++ rest) (encLog cmds).length idx stale = .error .corruptData
    have hge : cmds.length ≤ (encLog cmds ++ (encCmd (.remove k) ++ rest)).length := by
      have := encLog_length_ge cmds
      simp only [List.length_append]
      omega
    obtain ⟨m', hm'⟩ : ∃ m', (encLog cmds ++ (encCmd (.remove k) ++ rest)).length + 1 -
        cmds.length = m' + 1 :=
      ⟨(encLog cmds ++ (encCmd (.remove k) ++ rest)).length - cmds.length, by omega⟩
    rw [hm']
    rw [biLoop_ne_nil m' _ (by
      intro hnil
      exact encCmd_ne_nil (.remove k) (List.append_eq_nil.1 hnil).1)]
    rw [decCmd_enc (.remove k) rest hk]
    show (match applyCmd (.remove k) (encLog cmds).length _ idx stale with
      | Except.error err => Except.error err
      | Except.ok (idx', stale') => biLoop m' rest _ idx' stale') = .error .corruptData
    rw [show applyCmd (.remove k) (encLog cmds).length
        ((encLog cmds).length + ((encCmd (.remove k) ++ rest).length - rest.length))
        idx stale =
      (match idxLookup idx k with
        | none => .error .corruptData
        | some old => .ok (idxErase k idx, stale + (old.2 - old.1))) from rfl]
    rw [hnone]
  · intro s e hsome
    rw [buildIndex_fuel_split cmds (encCmd (.remove k)) hwfc, hrep]
    show biLoop ((encLog cmds ++ encCmd (.remove k)).length + 1 - cmds.length)
      (encCmd (.remove k)) (encLog cmds).length idx stale =
      .ok (idxErase k idx, stale + (e - s))
    have hge : cmds.length ≤ (encLog cmds ++ encCmd (.remove k)).length := by
      have := encLog_length_ge cmds
      simp only [List.length_append]
      omega
    obtain ⟨m', hm'⟩ : ∃ m', (encLog cmds ++ encCmd (.remove k)).length + 1 -
        cmds.length = m' + 1 :=
      ⟨(encLog cmds ++ encCmd (.remove k)).length - cmds.length, by omega⟩
    rw [hm']
    rw [biLoop_ne_nil m' _ (encCmd_ne_nil (.remove k))]
    have hdec : decCmd (encCmd (.remove k)) = some (.remove k, []) := by
      have := decCmd_enc (.remove k) [] hk
      rw [List.append_nil] at this
      exact this
    rw [hdec]
    show (match applyCmd (.remove k) (encLog cmds).length _ idx stale with
      | Except.error err => Except.error err
      | Except.ok (idx', stale') => biLoop m' [] _ idx' stale') =
      .ok (idxErase k idx, stale + (e - s))
    rw [show applyCmd (.remove k) (encLog cmds).length
        ((encLog cmds).length + ((encCmd (.remove k)).length - List.length [])) idx stale =
      (match idxLookup idx k with
        | none => .error .corruptData
        | some old => .ok (idxErase k idx, stale + (old.2 - old.1))) from rfl]
    rw [hsome]
    show biLoop m' [] _ (idxErase k idx) (stale + (e - s)) =
      .ok (idxErase k idx, stale + (e - s))
    exact biLoop_nil _ _ _ _

theorem c4_replay_remove_record_witness :
    buildIndex (encLog [Command.set [97] [98]] ++ (encCmd (.remove [98]) ++ [])) =
      .error .corruptData ∧
    buildIndex (encLog [Command.set [97] [98]] ++ encCmd (.remove [97])) =
      .ok (idxErase [97] [([97], (0, 20))], 0 + (20 - 0)) := by
  have hrep : replayLog [Command.set [97] [98]] 0 [] 0 =
      .ok ([([97], (0, 20))], 0) := by decide
  exact ⟨(c4_replay_remove_record _ [98] _ _ (by decide) (by decide) hrep).1 (by decide) [],
    (c4_replay_remove_record _ [97] _ _ (by decide) (by decide) hrep).2 0 20 (by decide)⟩

/-- C5, counterexample.  `build_index` on a log truncated in the middle
of a record fails with the CBOR deserialization error, which is a
different error from `CorruptData` (the code's "Corrupt" error, raised
only for a `Remove` with no prior `Set`). -/
theorem c5_truncation_error_is_not_corrupt_data :
    buildIndex ((encCmd (.set [97] [98])).take 3) = .error .serdeError ∧
      KvError.serdeError ≠ KvError.corruptData := by
  exact ⟨by decide, by decide⟩

/-- C5, amended.  A log consisting of well-formed records followed by a
truncated (strictly partial, nonempty) final record makes replay fail
with the CBOR deserialization error, whereas clean end-of-file at a
record boundary ends replay successfully with the replayed index. -/
theorem c5_truncated_tail_fails_clean_eof_succeeds
    (cmds : List Command) (c : Command) (n : Nat) (idx : Idx) (stale : Nat)
    (hwfc : ∀ x ∈ cmds, cmdWf x) (hc : cmdWf c)
    (hrep : replayLog cmds 0 [] 0 = .ok (idx, stale))
    (h0 : 0 < n) (hn : n < (encCmd c).length) :
    buildIndex (encLog cmds ++ (encCmd c).take n) = .error .serdeError ∧
      buildIndex (encLog cmds) = .ok (idx, stale) := by
  constructor
  · rw [buildIndex_fuel_split cmds ((encCmd c).take n) hwfc, hrep]
    show biLoop ((encLog cmds ++ (encCmd c).take n).length + 1 - cmds.length)
      ((encCmd c).take n) (encLog cmds).length idx stale = .error .serdeError
    have hge : cmds.length ≤ (encLog cmds ++ (encCmd c).take n).length := by
      have := encLog_length_ge cmds
      simp only [List.length_append]
      omega
    obtain ⟨m', hm'⟩ : ∃ m', (encLog cmds ++ (encCmd c).take n).length + 1 -
        cmds.length = m' + 1 :=
      ⟨(encLog cmds ++ (encCmd c).take n).length - cmds.length, by omega⟩
    rw [hm']
    rw [biLoop_ne_nil m' _ (by
      intro hnil
      have := congrArg List.length hnil
      simp only [List.length_take, List.length_nil] at this
      omega)]
    rw [decCmd_take_none c n hc h0 hn]
  · rw [buildIndex_encLog cmds hwfc]
    exact hrep

theorem c5_truncated_tail_fails_clean_eof_succeeds_witness :
    buildIndex (encLog [Command.set [97] [98]] ++ (encCmd (.set [99] [100])).take 5) =
      .error .serdeError ∧
    buildIndex (encLog [Command.set [97] [98]]) = .ok ([([97], (0, 20))], 0) := by
  have hrep : replayLog [Command.set [97] [98]] 0 [] 0 =
      .ok ([([97], (0, 20))], 0) := by decide
  exact c5_truncated_tail_fails_clean_eof_succeeds [Command.set [97] [98]]
    (.set [99] [100]) 5 _ _ (by decide) (by decide) hrep (by decide) (by decide)

theorem WF_of_WFmem (st : KvState) (h : WFmem st) : WF st := by
  obtain ⟨h1, h2, h3⟩ := h
  refine ⟨h1, h2, ?_⟩
  intro k s e hlk
  have hm : (k, (s, e)) ∈ st.index := mem_of_lookup_eq_some hlk
  exact h3 (k, (s, e)) hm

/-- C3.  From any state satisfying the engine invariant: after a
successful `set(k, v)`, running any operations that do not mutate `k`
(no `set k _`, no `remove k`, no `clear`) leaves every `get(k)`
returning `Some v`; after a successful `remove(k)`, it leaves every
`get(k)` returning `None`. -/
theorem c3_set_remove_then_get (st : KvState) (k : List Nat) (ops : List Op)
    (hwf : WF st) (hops : ∀ op ∈ ops, opWf op ∧ notMutating k op) :
    (∀ v, k.length < 2 ^ 64 → v.length < 2 ^ 64 →
        (kvSet k v st).1 = .ok () →
        kvGet (runOps ops (kvSet k v st).2) k = .ok (some v)) ∧
    ((kvRemove k st).1 = .ok () →
        kvGet (runOps ops (kvRemove k st).2) k = .ok none) := by
  constructor
  · intro v hk hv _
    have hw1 := kvSet_WF st k v hwf hk hv
    have hl1 := kvSet_live st k v hwf hk hv
    obtain ⟨hw2, hl2⟩ := runOps_preserve k ops _ hw1 hops
    rw [kvGet_liveVal _ hw2 k, hl2, hl1]
  · intro _
    have hw1 := kvRemove_WF st k hwf
    have hl1 := kvRemove_live st k hwf
    obtain ⟨hw2, hl2⟩ := runOps_preserve k ops _ hw1 hops
    rw [kvGet_liveVal _ hw2 k, hl2, hl1]

theorem c3_set_remove_then_get_witness :
    kvGet (runOps [Op.set [98] [99]]
        (kvSet [97] [98] (⟨[([107, 118, 115, 95, 48, 46, 99, 98, 111, 114], [])],
          0, [], 0⟩ : KvState)).2) [97] = .ok (some [98]) ∧
    kvGet (runOps []
        (kvRemove [97] (⟨[([107, 118, 115, 95, 48, 46, 99, 98, 111, 114],
            encCmd (.set [97] [98]))],
          0, [([97], (0, 20))], 0⟩ : KvState)).2) [97] = .ok none := by
  constructor
  · exact (c3_set_remove_then_get _ [97] [Op.set [98] [99]]
      (WF_of_WFmem _ (by decide))
      (by
        intro op hop
        rw [List.mem_singleton] at hop
        subst hop
        exact ⟨⟨by decide, by decide⟩, show ¬([98] = [97]) by decide⟩)).1 [98]
      (by decide) (by decide) (by decide)
  · exact (c3_set_remove_then_get _ [97] []
      (WF_of_WFmem _ (by decide))
      (by intro op hop; cases hop)).2 (by decide)

/-- C10.  The index-entry invariant: `open` establishes it, every
mutation (`set`, `remove`, `clear`, including the compactions they
trigger) preserves it, and under it every index entry `(k, s, e)` points
into the existing active log file at a well-formed `Set` record of `k`,
so the decode inside `get` succeeds and yields that record's value. -/
theorem c10_entry_invariant (st : KvState) :
    (∀ d : Dir, kvOpen d = .ok st → WF st) ∧
    (∀ op : Op, WF st → opWf op → WF ((stepOp op st).2)) ∧
    (∀ (k : List Nat) (s e : Nat), WF st →
        idxLookup st.index k = some (s, e) →
        ∃ f, dirGet st.dir (logName st.gen) = some f ∧ e ≤ f.length ∧
          ∃ v, decCmd ((f.drop s).take (e - s)) = some (.set k v, []) ∧
            kvGet st k = .ok (some v)) := by
  refine ⟨fun d h => kvOpen_WF d st h, fun op hwf hop => stepOp_WF st op hwf hop, ?_⟩
  intro k s e hwf hlk
  cases hdg : dirGet st.dir (logName st.gen) with
  | none =>
      have h1 := hwf.1
      rw [hdg] at h1
      exact absurd h1 (by simp)
  | some f =>
      have hact : activeFile st = f := by
        unfold activeFile
        rw [hdg]
        rfl
      obtain ⟨hse, hef, hdec⟩ := hwf.2.2 k s e hlk
      rw [hact] at hdec
      rw [hact] at hef
      refine ⟨f, rfl, hef, ?_⟩
      cases hd2 : decCmd ((f.drop s).take (e - s)) with
      | none => rw [hd2] at hdec; cases hdec
      | some p =>
          obtain ⟨c, r⟩ := p
          rw [hd2] at hdec
          cases c with
          | remove _ => cases hdec
          | set k0 v =>
              obtain ⟨hk0, hr⟩ := hdec
              subst hr
              refine ⟨v, by rw [hk0], ?_⟩
              rw [kvGet_liveVal st hwf k]
              have hlv : liveVal st k = some v := by
                unfold liveVal
                rw [hlk]
                show (match decCmd (((activeFile st).drop s).take (e - s)) with
                  | some (Command.set _ v, _) => some v
                  | _ => none) = some v
                rw [hact, hd2]
              rw [hlv]

theorem c10_entry_invariant_witness :
    WF (⟨[([107, 118, 115, 95, 48, 46, 99, 98, 111, 114], [])],
      0, [], 0⟩ : KvState) ∧
    WF ((stepOp (Op.set [97] [98])
      (⟨[([107, 118, 115, 95, 48, 46, 99, 98, 111, 114], [])],
        0, [], 0⟩ : KvState)).2) ∧
    (∃ f, dirGet ([([107, 118, 115, 95, 48, 46, 99, 98, 111, 114],
        encCmd (.set [97] [98]))] : Dir) (logName 0) = some f ∧ 20 ≤ f.length ∧
      ∃ v, decCmd ((f.drop 0).take (20 - 0)) = some (.set [97] v, []) ∧
        kvGet (⟨[([107, 118, 115, 95, 48, 46, 99, 98, 111, 114],
            encCmd (.set [97] [98]))],
          0, [([97], (0, 20))], 0⟩ : KvState) [97] = .ok (some v)) := by
  refine ⟨?_, ?_, ?_⟩
  · exact (c10_entry_invariant _).1 [] (by rfl)
  · exact (c10_entry_invariant _).2.1 (Op.set [97] [98])
      (WF_of_WFmem _ (by decide)) ⟨by decide, by decide⟩
  · exact (c10_entry_invariant (⟨[([107, 118, 115, 95, 48, 46, 99, 98, 111, 114],
        encCmd (.set [97] [98]))],
      0, [([97], (0, 20))], 0⟩ : KvState)).2.2 [97] 0 20
      (WF_of_WFmem _ (by decide)) (by decide)

theorem buildIndex_single_set (k v : List Nat)
    (hk : k.length < 2 ^ 64) (hv : v.length < 2 ^ 64) :
    buildIndex (encCmd (.set k v)) =
      .ok ([(k, (0, (encCmd (.set k v)).length))], 0) := by
  have h := buildIndex_encLog [Command.set k v] (by
    intro c hc
    rw [List.mem_singleton] at hc
    subst hc
    exact ⟨hk, hv⟩)
  rw [show encLog [Command.set k v] = encCmd (.set k v) from by simp [encLog]] at h
  rw [h]
  show Except.ok (idxInsert k (0, 0 + (encCmd (Command.set k v)).length) [], 0 + 0) =
    Except.ok ([(k, (0, (encCmd (Command.set k v)).length))], 0)
  simp only [Nat.zero_add, Nat.add_zero]
  rfl

theorem emptyRoundTrip_all (key val : List Nat)
    (hk : key.length < 2 ^ 64) (hv : val.length < 2 ^ 64) :
    emptyRoundTrip key val := by
  unfold emptyRoundTrip
  have hopen0 : kvOpen [] =
      .ok (⟨[([107, 118, 115, 95, 48, 46, 99, 98, 111, 114], [])],
        0, [], 0⟩ : KvState) := rfl
  rw [hopen0]
  show (kvSet key val (⟨[([107, 118, 115, 95, 48, 46, 99, 98, 111, 114], [])],
      0, [], 0⟩ : KvState)).1 = .ok () ∧
    kvGet (kvSet key val (⟨[([107, 118, 115, 95, 48, 46, 99, 98, 111, 114], [])],
      0, [], 0⟩ : KvState)).2 key = .ok (some val) ∧
    (match kvOpen ((kvSet key val (⟨[([107, 118, 115, 95, 48, 46, 99, 98, 111, 114], [])],
        0, [], 0⟩ : KvState)).2).dir with
     | Except.ok st2 => kvGet st2 key = .ok (some val)
     | Except.error _ => False)
  have hwf0 : WF (⟨[([107, 118, 115, 95, 48, 46, 99, 98, 111, 114], [])],
      0, [], 0⟩ : KvState) := WF_of_WFmem _ (by decide)
  have hstale : (setMain key val (⟨[([107, 118, 115, 95, 48, 46, 99, 98, 111, 114], [])],
      0, [], 0⟩ : KvState)).staleBytes = 0 := rfl
  have hset : kvSet key val (⟨[([107, 118, 115, 95, 48, 46, 99, 98, 111, 114], [])],
      0, [], 0⟩ : KvState) =
      (.ok (), setMain key val (⟨[([107, 118, 115, 95, 48, 46, 99, 98, 111, 114], [])],
        0, [], 0⟩ : KvState)) := by
    unfold kvSet
    rw [if_neg (by rw [hstale]; decide)]
  rw [hset]
  have hdg1 : dirGet (setMain key val
      (⟨[([107, 118, 115, 95, 48, 46, 99, 98, 111, 114], [])],
        0, [], 0⟩ : KvState)).dir (logName 0) =
      some (encCmd (.set key val)) := by
    show dirGet (dirSet _ (logName 0) (activeFile _ ++ encCmd (.set key val)))
      (logName 0) = _
    rw [dirGet_dirSet_self]
    rw [show activeFile (⟨[([107, 118, 115, 95, 48, 46, 99, 98, 111, 114], [])],
      0, [], 0⟩ : KvState) = [] from rfl]
    rw [List.nil_append]
  have hop2 : kvOpen (setMain key val
      (⟨[([107, 118, 115, 95, 48, 46, 99, 98, 111, 114], [])],
        0, [], 0⟩ : KvState)).dir =
      .ok (⟨(setMain key val (⟨[([107, 118, 115, 95, 48, 46, 99, 98, 111, 114], [])],
          0, [], 0⟩ : KvState)).dir,
        0, [(key, (0, (encCmd (.set key val)).length))], 0⟩ : KvState) := by
    unfold kvOpen
    simp only [] 
    rw [openGen_eq_zero]
    rw [hdg1]
    simp only [Option.isSome_some, if_true]
    rw [hdg1]
    simp only [Option.getD_some]
    rw [buildIndex_single_set key val hk hv]
  refine ⟨rfl, ?_, ?_⟩
  · rw [kvGet_liveVal _ (setMain_WF _ key val hwf0 hk hv) key,
      setMain_live _ key val hk hv]
  · rw [hop2]
    show kvGet (⟨(setMain key val
        (⟨[([107, 118, 115, 95, 48, 46, 99, 98, 111, 114], [])],
          0, [], 0⟩ : KvState)).dir,
      0, [(key, (0, (encCmd (.set key val)).length))], 0⟩ : KvState) key =
      .ok (some val)
    have hwf2 := kvOpen_WF _ _ hop2
    rw [kvGet_liveVal _ hwf2 key]
    have hlv : liveVal (⟨(setMain key val
        (⟨[([107, 118, 115, 95, 48, 46, 99, 98, 111, 114], [])],
          0, [], 0⟩ : KvState)).dir,
        0, [(key, (0, (encCmd (.set key val)).length))], 0⟩ : KvState) key =
        some val := by
      unfold liveVal
      rw [show idxLookup [(key, (0, (encCmd (.set key val)).length))] key =
        some (0, (encCmd (.set key val)).length) from by
          show List.lookup key [(key, (0, (encCmd (.set key val)).length))] = _
          rw [lookup_cons, if_pos rfl]]
      show (match decCmd ((List.drop 0 (activeFile _)).take
          ((encCmd (.set key val)).length - 0)) with
        | some (Command.set _ v, _) => some v
        | _ => none) = some val
      rw [show activeFile (⟨(setMain key val
          (⟨[([107, 118, 115, 95, 48, 46, 99, 98, 111, 114], [])],
            0, [], 0⟩ : KvState)).dir,
          0, [(key, (0, (encCmd (.set key val)).length))], 0⟩ : KvState) =
        encCmd (.set key val) from by
          unfold activeFile
          rw [hdg1]
          rfl]
      rw [List.drop_zero, Nat.sub_zero, List.take_length]
      have hd := decCmd_enc (.set key val) [] ⟨hk, hv⟩
      rw [List.append_nil] at hd
      rw [hd]
    rw [hlv]

/-- C9.  Empty strings are accepted as key and as value: from a fresh
directory, `set("", v)`, `set(k, "")` and `set("", "")` each succeed, a
`get` returns exactly the stored value, and the value survives reopening
the engine on the produced directory. -/
theorem c9_empty_key_and_value_round_trip (k v : List Nat)
    (hk : k.length < 2 ^ 64) (hv : v.length < 2 ^ 64) :
    emptyRoundTrip [] v ∧ emptyRoundTrip k [] ∧ emptyRoundTrip [] [] :=
  ⟨emptyRoundTrip_all [] v (by decide) hv,
    emptyRoundTrip_all k [] hk (by decide),
    emptyRoundTrip_all [] [] (by decide) (by decide)⟩

theorem c9_empty_key_and_value_round_trip_witness :
    emptyRoundTrip [] [118] ∧ emptyRoundTrip [107] [] ∧ emptyRoundTrip [] [] :=
  c9_empty_key_and_value_round_trip [107] [118] (by decide) (by decide)
